import Mathlib

/-!
Verification of the qdimacs-splitter repository (src/src/lib.rs and
src/src/main.rs) against its natural-language specification.

Shallow embedding conventions:
* Rust `i32`/`i64` values are modelled as `Int`, `u32`/`u64`/`usize` as `Nat`.
  All arithmetic that the claims exercise stays far below the overflow
  boundaries of the machine types, so machine arithmetic is modelled exactly;
  the one place a cast can wrap (`i32 as u64` on a constraint bound) is
  modelled with an explicit `emod 2^64`.
* Rust `f64` wall-clock times enter the claims only through comparisons,
  sums and selection of minima/maxima, so they are modelled as `Rat`
  (`partial_cmp` on the non-NaN floats the program produces is the total
  order on the represented rationals).
* Fallible code paths (`panic!`, `assert!`, `unwrap`, `expect`, slice
  indexing) are modelled with `Except String`; the message records which
  panic fired.
* Text is modelled as `List Char`.
-/

namespace QdimacsSplitter

/-- Rust enum `SolverReturnCode` (lib.rs): `Sat`, `Unsat`, `Timeout`. -/
inductive SolverReturnCode where
  | Sat
  | Unsat
  | Timeout
deriving DecidableEq, Repr

/-- Rust struct `SolverResult`.  lib.rs declares `wall_seconds` and `result`;
main.rs additionally reads and writes a `name` field on the same struct (the
revision of the library main.rs compiles against is not under src/).
Modelled from the spec: `SolverResult — (wall_seconds, result, name :
string identifying the source log)` (spec section 3). -/
structure SolverResult where
  wall_seconds : Rat
  result : SolverReturnCode
  name : String
deriving DecidableEq, Repr

/-- Rust enum `IntegerSplitKind` (lib.rs). -/
inductive IntegerSplitKind where
  | LessThan
  | GreaterThan
  | Equals
deriving DecidableEq, Repr

/-- Rust struct `IntegerSplitConstraint` (lib.rs): a kind and a target
(`Vec<Vec<i32>>`). -/
structure IntegerSplitConstraint where
  kind : IntegerSplitKind
  target : List (List Int)
deriving DecidableEq, Repr

/-- Rust struct `IntegerSplit` (lib.rs): variables and constraints. -/
structure IntegerSplit where
  vars : List Int
  constraints : List IntegerSplitConstraint
deriving DecidableEq, Repr

/-- Rust struct `Formula` (lib.rs).  The Rust field `prefix` is renamed
`prefix_` because `prefix` is a reserved keyword in Lean. -/
structure Formula where
  splits : List IntegerSplit
  prefix_ : List Int
  matrix : List (List Int)
  nr_of_variables : Int
  nr_of_clauses : Int
deriving DecidableEq, Repr

/-- lib.rs `fn to_u64(slice: &[i32]) -> u64`: fold the slice MSB-first,
mapping positive literals to 1-bits.  The slices this is applied to have
length below 64 (guarded by the assertion in `IntegerSplit::satisfied`), so
the `u64` accumulator never wraps and is modelled as `Nat`. -/
def to_u64 (slice : List Int) : Nat :=
  (slice.map (fun x => if 0 < x then (1 : Nat) else 0)).foldl
    (fun acc b => acc * 2 + b) 0

/-- The Rust cast `i32 as u64` (sign extension followed by reinterpretation),
modelled exactly. -/
def u64_of_i32 (x : Int) : Nat := (x % (2 ^ 64)).toNat

/-- First element of the first element of `target`, i.e. Rust
`self.target[0][0]`.  Rust panics when `target` is empty; the default 0 is
only reached there, and every claim works with well-formed constraints whose
target is non-empty. -/
def IntegerSplitConstraint.target00 (c : IntegerSplitConstraint) : Int :=
  (c.target.headD []).headD 0

/-- `IntegerSplitConstraint::satisfied` (lib.rs lines 124-136).  `LessThan`
and `GreaterThan` compare `num` against `target[0][0] as u64`; `Equals`
checks whether any alternative bit pattern matches `bits` position by
position (1 against a positive entry, 0 against a negative entry), with
`zip` truncating to the shorter list. -/
def IntegerSplitConstraint.satisfied (c : IntegerSplitConstraint)
    (bits : List Int) (num : Nat) : Bool :=
  match c.kind with
  | .LessThan => decide (num < u64_of_i32 c.target00)
  | .GreaterThan => decide (u64_of_i32 c.target00 < num)
  | .Equals => c.target.any (fun tgt =>
      (List.zip bits tgt).all (fun p =>
        (p.2 == 1 && decide (0 < p.1)) || (p.2 == 0 && decide (p.1 < 0))))

/-- `IntegerSplit::satisfied_with_num` (lib.rs): some constraint is
satisfied (disjunction over constraints). -/
def IntegerSplit.satisfied_with_num (s : IntegerSplit) (v : List Int)
    (num : Nat) : Bool :=
  s.constraints.any (fun c => c.satisfied v num)

/-- `IntegerSplit::satisfied` (lib.rs lines 149-153): asserts
`v.len() < 64`, then computes `to_u64 v` and delegates to
`satisfied_with_num`.  The assertion failure is modelled as an error. -/
def IntegerSplit.satisfiedE (s : IntegerSplit) (v : List Int) :
    Except String Bool :=
  if v.length < 64 then .ok (s.satisfied_with_num v (to_u64 v))
  else .error "assertion failed: v.len() < 64"

/-- The Lsb0 bit view of a `u64` value: 64 booleans, least significant
first (bitvec `view_bits::<Lsb0>()`). -/
def view_bits_lsb0 (n : Nat) : List Bool :=
  (List.range 64).map (fun j => Nat.testBit n j)

/-- `IntegerSplit::nr_of_splits` (lib.rs lines 155-171), modelled exactly as
written: the bound `n = base.pow(vars.len())` is a `u64` power, modelled
with its two's-complement wrapping (release-build) semantics
`2^k % 2^64`, which is 0 as soon as `vars.len() >= 64` (builds with
overflow checks abort at the same site instead).  The bit view taken
inside the loop is the bit view of `n` itself (the Rust code writes
`n.view_bits::<Lsb0>()`, not `i.view_bits...`), mapped to the integers 0/1.
Every index `0 <= i < n` is then tested with `satisfied_with_num(v, i)` and
the passing indices are counted. -/
def IntegerSplit.nr_of_splits (s : IntegerSplit) : Nat :=
  let n : Nat := (2 ^ s.vars.length) % 2 ^ 64
  let v : List Int := (view_bits_lsb0 n).map (fun b => if b then 1 else 0)
  ((List.range n).filter (fun i => s.satisfied_with_num v i)).length

/-- The assumption vector produced by `FormulaVars::next` (lib.rs lines
194-212) for index `idx` over the concatenated split variables `vars`:
the Lsb0 bits of `idx` are zipped against the reversed variables (zip
truncates to the shorter list, i.e. to `vars` when it has at most 64
entries), each variable is signed by its bit, and the result is reversed
back into variable order. -/
def formula_vars_current (vars : List Int) (idx : Nat) : List Int :=
  ((List.zip (view_bits_lsb0 idx) vars.reverse).map
    (fun p => if p.1 then p.2 else p.2 * -1)).reverse

/-- `Formula::embedded_splits_round_fitting` (lib.rs lines 219-232): walk the
splits, subtracting each split's variable count from the budget `d` (an
`i64`, so it may go negative); while the budget stays non-negative the
split is counted and its width added to the computed depth. -/
def roundFittingAux : List IntegerSplit → Int → Nat × Nat
  | [], _ => (0, 0)
  | s :: rest, d =>
    let d2 := d - s.vars.length
    if 0 ≤ d2 then
      let p := roundFittingAux rest d2
      (p.1 + s.vars.length, p.2 + 1)
    else (0, 0)

/-- See `roundFittingAux`. -/
def Formula.embedded_splits_round_fitting (f : Formula) (d : Int) :
    Nat × Nat :=
  roundFittingAux f.splits d

/-- Rust slice `x[b..e]`, which panics when the bounds are out of range. -/
def sliceE (x : List Int) (b e : Nat) : Except String (List Int) :=
  if b ≤ e ∧ e ≤ x.length then .ok ((x.drop b).take (e - b))
  else .error "panicked: slice index out of range"

/-- The per-split ranges of `produce_splits_from_embedded` (lib.rs lines
248-253): range `i` starts at the sum of the first `i` split widths and
spans the `i`-th width. -/
def split_ranges (lens : List Nat) : List (Nat × Nat) :=
  (List.range lens.length).map (fun i =>
    ((lens.take i).sum, (lens.take i).sum + lens.getD i 0))

/-- The filter body of `produce_splits_from_embedded`: every used split must
be satisfied on its slice of the candidate vector.  Rust `Iterator::all`
short-circuits, so later splits are not evaluated once one is unsatisfied;
slice or assertion panics are propagated as errors. -/
def allSatisfiedE : List (IntegerSplit × (Nat × Nat)) → List Int →
    Except String Bool
  | [], _ => .ok true
  | (s, r) :: rest, x => do
    let sl ← sliceE x r.1 r.2
    let b ← s.satisfiedE sl
    if b then allSatisfiedE rest x else .ok false

/-- Lazy `filter(...).collect()` over `Except`: the predicate runs on the
elements in order and its first panic aborts the collection. -/
def filterE {α : Type} (p : α → Except String Bool) :
    List α → Except String (List α)
  | [] => .ok []
  | a :: rest => do
    let b ← p a
    let tail ← filterE p rest
    if b then .ok (a :: tail) else .ok tail

/-- `Formula::produce_splits_from_embedded` (lib.rs lines 242-264): asserts
that some split exists, enumerates the candidate assumption vectors below
`max_idx = base.pow(bit_depth)`, and keeps those on which every used split
is satisfied.  The `u64` power (inside `iterate_possible_vars`, lib.rs line
239) is modelled with its wrapping (release-build) semantics
`2^bit_depth % 2^64`: for `bit_depth >= 64` it wraps to 0 and the
enumeration is empty, so the filter body never runs (builds with overflow
checks abort at the power instead). -/
def Formula.produce_splits_from_embedded (f : Formula)
    (bit_depth splits_depth : Nat) : Except String (List (List Int)) :=
  if f.splits.length = 0 then
    .error "assertion failed: self.splits.len() > 0"
  else
    let used := f.splits.take splits_depth
    let lens := used.map (fun s => s.vars.length)
    let ranges := split_ranges lens
    let allVars := (used.map (fun s => s.vars)).flatten
    let cands := (List.range ((2 ^ bit_depth) % 2 ^ 64)).map
      (fun idx => formula_vars_current allVars idx)
    filterE (fun x => allSatisfiedE (List.zip used ranges) x) cands

/-- `Formula::produce_splits_from_prefix_expansion` (lib.rs lines 265-285):
binary fan-out over the first `min bit_depth |prefix|` prefix variables.
The `u64` power `base.pow(depth)` (lib.rs line 269) is modelled with its
wrapping (release-build) semantics `2^depth % 2^64`; whenever the
resulting range is non-empty, `depth < 64` and the indexing of the
64-entry bit view of `v` at position `i < depth` is in range, so the
total `Nat.testBit` agrees with `bv[i]` on every evaluated index. -/
def Formula.produce_splits_from_prefix_expansion (f : Formula)
    (bit_depth : Nat) : List (List Int) :=
  let depth := min bit_depth f.prefix_.length
  (List.range ((2 ^ depth) % 2 ^ 64)).map (fun v =>
    (List.range depth).map (fun i =>
      let abs_lit : Int := |f.prefix_.getD i 0|
      if Nat.testBit v i then abs_lit else -abs_lit))

/-- `Formula::produce_splits` (lib.rs lines 286-294): embedded mode when any
split exists, otherwise prefix expansion clamped to the prefix length. -/
def Formula.produce_splits (f : Formula) (depth : Nat) :
    Except String (List (List Int)) :=
  if 0 < f.splits.length then
    let p := f.embedded_splits_round_fitting depth
    f.produce_splits_from_embedded p.1 p.2
  else
    .ok (f.produce_splits_from_prefix_expansion (min depth f.prefix_.length))

/-- lib.rs `fn sign`, which panics on 0. -/
def signE (n : Int) : Except String Int :=
  if 0 < n then .ok 1
  else if n < 0 then .ok (-1)
  else .error "Do not call sign with 0!"

/-- lib.rs `fn var_constraint_to_nr_of_bits`: `ceil(log2 v)` computed via
`f64`.  For the positive 32-bit bounds the grammar admits, the float
computation is exact and equals `Nat.clog 2`; non-positive arguments (on
which the float path would produce NaN) are unreachable from the parser and
mapped to 0. -/
def var_constraint_to_nr_of_bits (v : Int) : Nat :=
  if v ≤ 0 then 0 else Nat.clog 2 v.toNat

/-- Width inference for a split without variables (lib.rs lines 491-496):
`LessThan`/`GreaterThan` take `ceil(log2)` of the first bound,
`Equals` the length of the first alternative.  Rust indexes `target[0]`
(and `target[0][0]`), panicking on an empty target. -/
def constraint_nr_of_bits (c : IntegerSplitConstraint) :
    Except String Nat :=
  match c.kind with
  | .LessThan | .GreaterThan =>
    match c.target with
    | (b :: _) :: _ => .ok (var_constraint_to_nr_of_bits b)
    | _ => .error "panicked: index out of bounds"
  | .Equals =>
    match c.target with
    | t :: _ => .ok t.length
    | [] => .error "panicked: index out of bounds"

/-- The fixup loop of `parse_qdimacs` (lib.rs lines 484-505): splits must
have at least one constraint; a split without variables receives the next
`nr_of_bits` absolute prefix values at the running cursor (Rust slices the
prefix, panicking when the range exceeds it); a split with variables just
advances the cursor. -/
def fixup_splits (pre : List Int) :
    List IntegerSplit → Nat → Except String (List IntegerSplit)
  | [], _ => .ok []
  | s :: rest, start =>
    if s.constraints.length < 1 then
      .error "Require some constraints for int splits!"
    else if s.vars.length = 0 then do
      let nb ← constraint_nr_of_bits (s.constraints.headD ⟨.LessThan, []⟩)
      if start + nb ≤ pre.length then do
        let vars := ((pre.drop start).take nb).map (fun x => |x|)
        let tail ← fixup_splits pre rest (start + nb)
        .ok (IntegerSplit.mk vars s.constraints :: tail)
      else .error "panicked: slice index out of range"
    else do
      let tail ← fixup_splits pre rest (start + s.vars.length)
      .ok (s :: tail)

/-- Default splitter synthesis (lib.rs lines 507-522): one single-variable
`LessThan 2` split per prefix position, up to the first 64. -/
def default_splits (pre : List Int) : List IntegerSplit :=
  (pre.take (min pre.length 64)).map (fun p =>
    IntegerSplit.mk [|p|] [IntegerSplitConstraint.mk .LessThan [[2]]])

/-- Inner loop of the quantifier-block consistency check (lib.rs lines
525-535): each split variable is looked up in the prefix (the first entry
with matching absolute value; `unwrap` panics when none exists) and its
sign compared with the previous variable's quantifier. -/
def consistency_vars (pre : List Int) : Int → List Int →
    Except String Unit
  | _, [] => .ok ()
  | lastQ, v :: vs =>
    match pre.find? (fun q => |q| == v) with
    | none => .error "panicked: unwrap on None"
    | some q =>
      if lastQ ≠ 0 then do
        let s1 ← signE lastQ
        let s2 ← signE q
        if s1 ≠ s2 then
          .error "One constraint over multiple different quantifier types!"
        else consistency_vars pre q vs
      else consistency_vars pre q vs

/-- The quantifier-block consistency check over all splits. -/
def consistency_check (pre : List Int) :
    List IntegerSplit → Except String Unit
  | [] => .ok ()
  | s :: rest => do
    let _ ← consistency_vars pre 0 s.vars
    consistency_check pre rest

/-- Post-processing tail of `parse_qdimacs` (lib.rs lines 484-544): fixup of
splits without variables, default splitter synthesis when no split was
declared and the prefix is non-empty, consistency check, and assembly of
the `Formula`. -/
def parse_post (splits0 : List IntegerSplit) (pre : List Int)
    (mat : List (List Int)) (nv nc : Int) : Except String Formula := do
  let fixed ← fixup_splits pre splits0 0
  let splits := if fixed.length = 0 ∧ 0 < pre.length
    then default_splits pre else fixed
  let _ ← consistency_check pre splits
  .ok (Formula.mk splits pre mat nv nc)


/-- main.rs enum `Quantifier`. -/
inductive Quantifier where
  | Forall
  | Exists
deriving DecidableEq, Repr

/-- Rust `Iterator::min_by` comparing `wall_seconds` (the first of several
equal minima is returned), `none` on an empty iterator.  `partial_cmp`
panics on NaN; the `Rat` model has no NaN. -/
def minByWall : List SolverResult → Option SolverResult
  | [] => none
  | a :: rest =>
    some (rest.foldl (fun acc x =>
      if x.wall_seconds < acc.wall_seconds then x else acc) a)

/-- Rust `Iterator::max_by` comparing `wall_seconds` (the last of several
equal maxima is returned), `none` on an empty iterator. -/
def maxByWall : List SolverResult → Option SolverResult
  | [] => none
  | a :: rest =>
    some (rest.foldl (fun acc x =>
      if acc.wall_seconds > x.wall_seconds then acc else x) a)

/-- One chunk of `reduce_result` (main.rs lines 100-175): existential
aggregation prefers any `Sat` (minimum time among the `Sat` results), else
all-`Unsat` (maximum time), else the `Timeout` sentinel; universal
aggregation is the dual.  The `unwrap` on the filtered minimum/maximum is
modelled as an error (unreachable for the non-empty chunks the caller
builds). -/
def chunk_reduce (quant : Quantifier) (chunk : List SolverResult) :
    Except String SolverResult :=
  match quant with
  | .Exists =>
    if chunk.any (fun r => r.result == .Sat) then
      match minByWall (chunk.filter (fun r => r.result == .Sat)) with
      | some mn => .ok ⟨mn.wall_seconds, .Sat, mn.name⟩
      | none => .error "panicked: unwrap on None"
    else if chunk.all (fun r => r.result == .Unsat) then
      match maxByWall (chunk.filter (fun r => r.result == .Unsat)) with
      | some mx => .ok ⟨mx.wall_seconds, .Unsat, mx.name⟩
      | none => .error "panicked: unwrap on None"
    else .ok ⟨10000000, .Timeout, "(no solver)"⟩
  | .Forall =>
    if chunk.all (fun r => r.result == .Sat) then
      match maxByWall (chunk.filter (fun r => r.result == .Sat)) with
      | some mx => .ok ⟨mx.wall_seconds, .Sat, mx.name⟩
      | none => .error "panicked: unwrap on None"
    else if chunk.any (fun r => r.result == .Unsat) then
      match minByWall (chunk.filter (fun r => r.result == .Unsat)) with
      | some mn => .ok ⟨mn.wall_seconds, .Unsat, mn.name⟩
      | none => .error "panicked: unwrap on None"
    else .ok ⟨10000000, .Timeout, "(no solver)"⟩

/-- main.rs `reduce_result` (lines 92-177): assert a positive width, then
partition the results into `len / width` contiguous chunks and reduce each
chunk. -/
def reduce_result (quant : Quantifier) (single_layer_width : Nat)
    (results : List SolverResult) : Except String (List SolverResult) :=
  if single_layer_width = 0 then
    .error "assertion failed: single_layer_width > 0"
  else
    (List.range (results.length / single_layer_width)).mapM
      (fun x => chunk_reduce quant
        ((results.drop (x * single_layer_width)).take single_layer_width))

/-- main.rs `quant_from_prefix` (lines 179-188): positions past the end of
the prefix and negative prefix entries are existential, the rest
universal. -/
def quant_from_prefix (f : Formula) (pos : Nat) : Quantifier :=
  if pos ≥ f.prefix_.length then .Exists
  else if f.prefix_.getD pos 0 < 0 then .Exists
  else .Forall

/-- main.rs struct `SolveStatistics`. -/
structure SolveStatistics where
  minimal_execution_time_seconds : Rat
  summed_execution_time_seconds : Rat
  non_split_execution_time_seconds : Rat
  speedup_against_non_split : Rat
  required_cores : Int
  result : SolverReturnCode
  naive_split_count : Int
  run_tasks_compared_to_naive : Rat
deriving DecidableEq, Repr

/-- The reduction loop of `produce_statistics_from_run` (main.rs lines
216-226): one `reduce_result` per used split (the caller passes the splits
innermost first), with the quantifier-tree position decremented by the
split width while it stays above it. -/
def reduce_fold (f : Formula) : List IntegerSplit → Nat →
    List SolverResult → Except String (List SolverResult)
  | [], _, acc => .ok acc
  | s :: rest, qpos, acc => do
    let acc2 ← reduce_result ( quant_from_prefix f qpos) s.nr_of_splits acc
    reduce_fold f rest
      (if qpos > s.vars.length then qpos - s.vars.length else qpos) acc2

/-- main.rs `produce_statistics_from_run` (lines 190-251).  The slice
`splits[0..split_count]` panics when out of range.  `quanttree_pos` starts
at `splits_depth - 1`; this `usize` subtraction is modelled with truncating
`Nat` subtraction, which differs from Rust only when `splits_depth = 0`
(where Rust underflows; the position feeds `quant_from_prefix` only inside
the fold, which at depth 0 can only run on zero-width splits).  The
`i32::pow` for the naive split count and the `f64` statistics are modelled
exactly over `Int`/`Rat`.  The final assertion demands exactly one fused
result. -/
def produce_statistics_from_run (f : Formula) (results : List SolverResult)
    (split_count : Nat) (og_formula_result : Option SolverResult) :
    Except String SolveStatistics :=
  if split_count > f.splits.length then
    .error "panicked: slice index out of range"
  else
    let splits := (f.splits.take split_count).reverse
    let splits_depth : Nat := (splits.map (fun s => s.vars.length)).sum
    let naive_split_count : Int := 2 ^ splits_depth
    let required_cores : Int := results.length
    let summed : Rat := (results.map (fun r => r.wall_seconds)).sum
    do
      let fused ← reduce_fold f splits (splits_depth - 1) results
      if fused.length = 1 then
        let r0 := fused.headD ⟨0, .Timeout, ""⟩
        let non_split : Rat := match og_formula_result with
          | some r => r.wall_seconds
          | none => 10000000
        let speedup : Rat := match og_formula_result with
          | some r => r.wall_seconds / r0.wall_seconds
          | none => 0
        .ok ⟨r0.wall_seconds, summed, non_split, speedup, required_cores,
          r0.result, naive_split_count,
          (required_cores : Rat) / (naive_split_count : Rat)⟩
      else .error "assertion failed: solver_results.len() == 1"

/-- ASCII whitespace separating QDIMACS tokens. -/
def isWsChar (c : Char) : Bool :=
  c == ' ' || c == '\t' || c == '\n' || c == '\r'

/-- Decimal digit characters. -/
def digitChar (d : Nat) : Char :=
  match d with
  | 0 => '0' | 1 => '1' | 2 => '2' | 3 => '3' | 4 => '4'
  | 5 => '5' | 6 => '6' | 7 => '7' | 8 => '8' | _ => '9'

/-- Numeric value of a digit character. -/
def digitVal (c : Char) : Nat := c.toNat - 48

/-- Decimal rendering of a natural number, with explicit fuel to keep the
recursion structural (the fuel `n + 1` always suffices). -/
def natCharsAux : Nat → Nat → List Char
  | 0, _ => []
  | fuel + 1, n =>
    if n < 10 then [digitChar n]
    else natCharsAux fuel (n / 10) ++ [digitChar (n % 10)]

/-- See `natCharsAux`. -/
def natChars (n : Nat) : List Char := natCharsAux (n + 1) n

/-- Rust `{}` formatting of an `i32`. -/
def intChars (i : Int) : List Char :=
  if i < 0 then '-' :: natChars i.natAbs else natChars i.toNat

/-- Decimal value of a digit string (the accumulator form of
`str::parse`). -/
def digitsToNat (acc : Nat) : List Char → Nat
  | [] => acc
  | c :: cs => digitsToNat (acc * 10 + digitVal c) cs

/-- Whitespace tokenizer with comment-line skipping, modelled from the
spec grammar.  The first argument is `none` while inside a comment and
`some cur` otherwise, with `cur` the reversed current token; the boolean
tracks whether the scanner is at the start of a line (where a `c` starts
a comment). -/
def tokensGo : Option (List Char) → Bool → List Char → List (List Char)
  | none, _, [] => []
  | some cur, _, [] => if cur = [] then [] else [cur.reverse]
  | none, _, c :: cs =>
    if c = '\n' then tokensGo (some []) true cs else tokensGo none false cs
  | some cur, ls, c :: cs =>
    if isWsChar c then
      if cur = [] then tokensGo (some []) (c = '\n') cs
      else cur.reverse :: tokensGo (some []) (c = '\n') cs
    else if ls ∧ cur = [] ∧ c = 'c' then tokensGo none false cs
    else tokensGo (some (c :: cur)) false cs

/-- The token stream of a QDIMACS text. -/
def qdimacs_tokens (cs : List Char) : List (List Char) :=
  tokensGo (some []) true cs

/-- Grammar `pnum` (a positive integer token) combined with the
`parse::<i32>().unwrap()` of the consuming code: non-digit tokens and `0`
are grammar errors, values beyond `i32::MAX` make the unwrap panic. -/
def parsePnum (t : List Char) : Except String Nat :=
  if t ≠ [] ∧ t.all Char.isDigit then
    if digitsToNat 0 t = 0 then .error "parser error"
    else if digitsToNat 0 t > 2 ^ 31 - 1 then
      .error "panicked: parse i32 overflow"
    else .ok (digitsToNat 0 t)
  else .error "parser error"

/-- A non-negative integer token of the problem line, parsed as `i32`. -/
def parseNatI32 (t : List Char) : Except String Nat :=
  if t ≠ [] ∧ t.all Char.isDigit then
    if digitsToNat 0 t > 2 ^ 31 - 1 then
      .error "panicked: parse i32 overflow"
    else .ok (digitsToNat 0 t)
  else .error "parser error"

/-- The negative branch of a signed literal token: the digits after the
leading minus sign, with the `i32` lower bound `-2^31`. -/
def parseNegLit (rest : List Char) : Except String Int :=
  if rest ≠ [] ∧ rest.all Char.isDigit then
    if digitsToNat 0 rest = 0 then .error "parser error"
    else if digitsToNat 0 rest > 2 ^ 31 then
      .error "panicked: parse i32 overflow"
    else .ok (-(digitsToNat 0 rest : Int))
  else .error "parser error"

/-- The positive branch of a signed literal token. -/
def parsePosLit (t : List Char) : Except String Int :=
  if t ≠ [] ∧ t.all Char.isDigit then
    if digitsToNat 0 t = 0 then .error "parser error"
    else if digitsToNat 0 t > 2 ^ 31 - 1 then
      .error "panicked: parse i32 overflow"
    else .ok ((digitsToNat 0 t : Nat) : Int)
  else .error "parser error"

/-- A signed non-zero clause literal token, parsed as `i32`. -/
def parseLit : List Char → Except String Int
  | [] => .error "parser error"
  | c :: rest =>
    if c = '-' then parseNegLit rest else parsePosLit (c :: rest)

/-- Grammar `onezero`: a maximal run of 0/1 characters; the lone `0` is
the group terminator, not a pattern. -/
def isOnezeroTok (t : List Char) : Bool :=
  decide (t ≠ [] ∧ (∀ c ∈ t, c = '0' ∨ c = '1') ∧ t ≠ ['0'])

/-- The 1/0 integers of an `=` bit pattern (lib.rs lines 413-427; the
panic on other characters is unreachable behind `isOnezeroTok`). -/
def patInts (t : List Char) : List Int :=
  t.map (fun c => if c = '1' then (1 : Int) else 0)

/-- Parser mode inside the token loop of `parse_qdimacs` (lib.rs lines
372-482): top level, inside a quantifier set, inside a clause, or inside
an integer-split line (reading variables, expecting a comparator, reading
a `<`/`>` bound, or reading `=` bit patterns).  `nrBits` is the per-line
bit-width check state shared by all `=` groups of one `IS` line. -/
inductive PMode where
  | top
  | quant (neg : Bool) (got : Bool)
  | clause (acc : List Int)
  | isVars (vars : List Int)
  | isCmp (vars : List Int) (constraints : List IntegerSplitConstraint)
      (nrBits : Nat)
  | isBound (vars : List Int) (constraints : List IntegerSplitConstraint)
      (nrBits : Nat) (kind : IntegerSplitKind)
  | isEq (vars : List Int) (constraints : List IntegerSplitConstraint)
      (nrBits : Nat) (pats : List (List Int))
deriving DecidableEq, Repr

/-- The token loop of `parse_qdimacs`, accumulating the prefix, matrix and
split declarations.  A token stream ending inside a group is a grammar
error (non-terminated group). -/
def pgo (pre : List Int) (mat : List (List Int))
    (spl : List IntegerSplit) : PMode → List (List Char) →
    Except String (List Int × List (List Int) × List IntegerSplit)
  | .top, [] => .ok (pre, mat, spl)
  | _, [] => .error "parser error"
  | .top, t :: ts =>
    if t = ['e'] then pgo pre mat spl (.quant true false) ts
    else if t = ['a'] then pgo pre mat spl (.quant false false) ts
    else if t = ['I', 'S'] then pgo pre mat spl (.isVars []) ts
    else
      (parseLit t).bind (fun l => pgo pre mat spl (.clause [l]) ts)
  | .quant neg got, t :: ts =>
    if t = ['0'] then
      if got then pgo pre mat spl .top ts else .error "parser error"
    else
      (parsePnum t).bind (fun v =>
        pgo (pre ++ [if neg then -(v : Int) else (v : Int)]) mat spl
          (.quant neg true) ts)
  | .clause acc, t :: ts =>
    if t = ['0'] then pgo pre (mat ++ [acc]) spl .top ts
    else
      (parseLit t).bind (fun l => pgo pre mat spl (.clause (acc ++ [l])) ts)
  | .isVars vars, t :: ts =>
    if t = ['<'] then pgo pre mat spl (.isBound vars [] 0 .LessThan) ts
    else if t = ['>'] then pgo pre mat spl (.isBound vars [] 0 .GreaterThan) ts
    else if t = ['='] then pgo pre mat spl (.isEq vars [] 0 []) ts
    else
      (parsePnum t).bind (fun v => pgo pre mat spl (.isVars (vars ++ [(v : Int)])) ts)
  | .isBound vars cons nrBits kind, t :: ts =>
    (parsePnum t).bind (fun v =>
      pgo pre mat spl
        (.isCmp vars (cons ++ [IntegerSplitConstraint.mk kind [[(v : Int)]]])
          nrBits) ts)
  | .isCmp vars cons nrBits, t :: ts =>
    if t = ['0'] then
      pgo pre mat (spl ++ [IntegerSplit.mk vars cons]) .top ts
    else if t = ['<'] then pgo pre mat spl (.isBound vars cons nrBits .LessThan) ts
    else if t = ['>'] then pgo pre mat spl (.isBound vars cons nrBits .GreaterThan) ts
    else if t = ['='] then pgo pre mat spl (.isEq vars cons nrBits []) ts
    else .error "parser error"
  | .isEq vars cons nrBits pats, t :: ts =>
    if isOnezeroTok t then
      if nrBits = 0 then
        pgo pre mat spl (.isEq vars cons t.length (pats ++ [patInts t])) ts
      else if t.length ≠ nrBits then
        .error "Number of assigned bits in equals must always be the same!"
      else pgo pre mat spl (.isEq vars cons nrBits (pats ++ [patInts t])) ts
    else if pats = [] then .error "parser error"
    else if t = ['0'] then
      pgo pre mat
        (spl ++ [IntegerSplit.mk vars
          (cons ++ [IntegerSplitConstraint.mk .Equals pats])]) .top ts
    else if t = ['<'] then
      pgo pre mat spl (.isBound vars
        (cons ++ [IntegerSplitConstraint.mk .Equals pats]) nrBits .LessThan) ts
    else if t = ['>'] then
      pgo pre mat spl (.isBound vars
        (cons ++ [IntegerSplitConstraint.mk .Equals pats]) nrBits
        .GreaterThan) ts
    else if t = ['='] then
      pgo pre mat spl (.isEq vars
        (cons ++ [IntegerSplitConstraint.mk .Equals pats]) nrBits []) ts
    else .error "parser error"

/-- The raw result of the token phase: problem-line numbers, prefix,
matrix and declared splits. -/
structure RawParse where
  nv : Int
  nc : Int
  pre : List Int
  mat : List (List Int)
  spl : List IntegerSplit
deriving DecidableEq, Repr

/-- Token-level parse: the `p cnf V C` problem line followed by the
groups. -/
def parse_tokens (toks : List (List Char)) : Except String RawParse :=
  match toks with
  | t0 :: t1 :: vt :: ct :: rest =>
    if t0 = ['p'] ∧ t1 = ['c', 'n', 'f'] then
      (parseNatI32 vt).bind (fun nv =>
        (parseNatI32 ct).bind (fun nc =>
          (pgo [] [] [] .top rest).bind (fun r =>
            .ok ⟨(nv : Int), (nc : Int), r.1, r.2.1, r.2.2⟩)))
    else .error "parser error"
  | _ => .error "parser error"

/-- The outcome of `parse_qdimacs`: the Rust signature is
`Result<Formula, String>`, whose `Err` branch exists in the type; every
failure path in the implementation panics instead (the
`.expect("parser error")` on the pest result, and the `panic!`/`assert`
calls of the post-processing), so the embedding distinguishes the two. -/
inductive ParseOutcome where
  | ok (f : Formula)
  | err (msg : String)
  | panicked (msg : String)
deriving DecidableEq, Repr

/-- `parse_qdimacs` (lib.rs lines 360-544) over a QDIMACS text. -/
def parse_qdimacs (input : List Char) : ParseOutcome :=
  match parse_tokens (qdimacs_tokens input) with
  | .error m => .panicked m
  | .ok r =>
    match parse_post r.spl r.pre r.mat r.nv r.nc with
    | .error m => .panicked m
    | .ok f => .ok f

/-- `write_qdimacs` (lib.rs lines 307-313): the problem line. -/
def write_problem_line (f : Formula) : List Char :=
  'p' :: ' ' :: 'c' :: 'n' :: 'f' :: ' ' ::
    (intChars f.nr_of_variables ++ ' ' :: (intChars f.nr_of_clauses ++ ['\n']))

/-- The prefix loop of `write_qdimacs` (lib.rs lines 315-340), including
the final block terminator: a new `e`/`a` block opens when the sign
changes (closing the previous block with ` 0`), and block-internal
variables are emitted as ` v`. -/
def write_prefix_loop : Int → List Int → List Char
  | lastQ, [] => if lastQ ≠ 0 then [' ', '0', '\n'] else []
  | lastQ, q :: rest =>
    (if q < 0 ∧ 0 ≤ lastQ then
      (if lastQ ≠ 0 then [' ', '0', '\n'] else []) ++ 'e' :: ' ' :: intChars (-q)
    else if 0 < q ∧ lastQ ≤ 0 then
      (if lastQ ≠ 0 then [' ', '0', '\n'] else []) ++ 'a' :: ' ' :: intChars q
    else if q < 0 then ' ' :: intChars (-q)
    else ' ' :: intChars q) ++ write_prefix_loop q rest

/-- One clause line of `write_qdimacs` (lib.rs lines 342-351). -/
def write_clause (cl : List Int) : List Char :=
  (cl.map (fun l => intChars l ++ [' '])).flatten ++ ['0', '\n']

/-- `write_qdimacs` (lib.rs lines 307-353) as text generation; the file
IO wrapper is out of scope. -/
def write_qdimacs (f : Formula) : List Char :=
  write_problem_line f ++ write_prefix_loop 0 f.prefix_ ++
    (f.matrix.map write_clause).flatten

/-- Match a literal character sequence at the head of the text. -/
def stripLiteral : List Char → List Char → Option (List Char)
  | [], cs => some cs
  | _ :: _, [] => none
  | p :: ps, c :: cs => if c = p then stripLiteral ps cs else none

/-- The anchored wall-time probe of `extract_result_from_file`: the Rust
regex `^\[runlim\] real:\s*(\d+(?:\.\d+))` (lib.rs lines 50-51; note
that the source regex has no `?` after the fractional group, so a dot and
a second digit run are mandatory).  Whitespace and digit classes are
disjoint and the dot cannot match a digit, so greedy matching is
deterministic here.  Returns the capture split at the dot. -/
def wall_time_capture (line : List Char) : Option (List Char × List Char) :=
  match stripLiteral "[runlim] real:".toList line with
  | none => none
  | some rest =>
    let rest2 := rest.dropWhile (fun c => isWsChar c)
    let d1 := rest2.takeWhile Char.isDigit
    match rest2.dropWhile Char.isDigit with
    | '.' :: rest4 =>
      let d2 := rest4.takeWhile Char.isDigit
      if d1 = [] ∨ d2 = [] then none else some (d1, d2)
    | _ => none

/-- The unanchored exit-code probe of `extract_result_from_file`: the Rust
regex `Command exited with non-zero status (\d+)` searched anywhere in the
line (leftmost match). -/
def exit_code_capture : List Char → Option (List Char)
  | [] => none
  | c :: cs =>
    match stripLiteral "Command exited with non-zero status ".toList
        (c :: cs) with
    | some rest =>
      let d := rest.takeWhile Char.isDigit
      if d = [] then exit_code_capture cs else some d
    | none => exit_code_capture cs

/-- The exit-code mapping of lib.rs lines 62-68: the capture string `10`
is `Sat`, `20` is `Unsat`, anything else `Timeout`. -/
def exit_code_result (d : List Char) : SolverReturnCode :=
  if d = ['1', '0'] then .Sat
  else if d = ['2', '0'] then .Unsat
  else .Timeout

/-- The exact rational value of a captured wall time `D.F` (the `f64`
parse of the capture, modelled without rounding). -/
def capture_to_rat (d1 d2 : List Char) : Rat :=
  (digitsToNat 0 d1 : Rat) + (digitsToNat 0 d2 : Rat) / (10 : Rat) ^ d2.length

/-- `extract_result_from_file` (lib.rs lines 46-85) over the lines of the
log text; file IO is out of scope.  Later matches overwrite earlier ones,
and the initial state is `Timeout` at 0.0 seconds.  The `name` parameter
follows the two-argument call in main.rs; modelled from the spec: the
`SolverResult` carries the log name (section 4.6). -/
def extract_result_from_lines (lines : List (List Char)) (name : String) :
    SolverResult :=
  let st := lines.foldl (fun st line =>
    let st1 := match exit_code_capture line with
      | some d => ((st.1 : Rat), exit_code_result d)
      | none => st
    match wall_time_capture line with
    | some (d1, d2) => (capture_to_rat d1 d2, st1.2)
    | none => st1) ((0 : Rat), SolverReturnCode.Timeout)
  ⟨st.1, st.2, name⟩

/-- The token stream of `write_prefix_loop` (proof vocabulary mirroring
the emitter). -/
def prefix_tokens : Int → List Int → List (List Char)
  | lastQ, [] => if lastQ ≠ 0 then [['0']] else []
  | lastQ, q :: rest =>
    (if q < 0 ∧ 0 ≤ lastQ then
      (if lastQ ≠ 0 then [['0']] else []) ++ [['e'], intChars (-q)]
    else if 0 < q ∧ lastQ ≤ 0 then
      (if lastQ ≠ 0 then [['0']] else []) ++ [['a'], intChars q]
    else if q < 0 then [intChars (-q)]
    else [intChars q]) ++ prefix_tokens q rest

/-- The token stream of one written clause. -/
def clause_tokens (cl : List Int) : List (List Char) :=
  cl.map intChars ++ [['0']]

/-- The token stream of the written matrix. -/
def matrix_tokens (m : List (List Int)) : List (List Char) :=
  (m.map clause_tokens).flatten

/-- Statement vocabulary: `q` is the wall time of some element of `l` and
bounds every element of `l` from above. -/
def isMaxWallOf (q : Rat) (l : List SolverResult) : Prop :=
  q ∈ l.map (fun r => r.wall_seconds) ∧ ∀ r ∈ l, r.wall_seconds ≤ q

/-- Statement vocabulary: `q` is the wall time of some element of `l` and
bounds every element of `l` from below. -/
def isMinWallOf (q : Rat) (l : List SolverResult) : Prop :=
  q ∈ l.map (fun r => r.wall_seconds) ∧ ∀ r ∈ l, q ≤ r.wall_seconds

/-! ## Helper lemmas -/

@[simp] theorem ok_bind {α β : Type} (a : α) (f : α → Except String β) :
    (Except.ok a : Except String α) >>= f = f a := rfl

@[simp] theorem error_bind {α β : Type} (e : String)
    (f : α → Except String β) :
    (Except.error e : Except String α) >>= f = Except.error e := rfl

theorem length_filter_range_lt (b n : Nat) :
    ((List.range n).filter (fun i => decide (i < b))).length = min b n := by
  induction n with
  | zero => simp
  | succ n ih =>
    rw [List.range_succ, List.filter_append, List.length_append, ih]
    by_cases h : n < b
    · simp [h]
      omega
    · simp [h]
      omega

theorem u64_of_i32_eq_toNat (b : Int) (h0 : 0 ≤ b) (h1 : b < 2 ^ 64) :
    u64_of_i32 b = b.toNat := by
  unfold u64_of_i32
  rw [Int.emod_eq_of_lt h0 h1]

theorem filterE_all_true {α : Type} (p : α → Except String Bool) (l : List α)
    (h : ∀ a ∈ l, p a = .ok true) : filterE p l = .ok l := by
  induction l with
  | nil => rfl
  | cons a rest ih =>
    have ha := h a (by simp)
    have hr := ih (fun x hx => h x (by simp [hx]))
    simp only [filterE, ha, hr]
    rfl

theorem filterE_all_false {α : Type} (p : α → Except String Bool) (l : List α)
    (h : ∀ a ∈ l, p a = .ok false) : filterE p l = .ok [] := by
  induction l with
  | nil => rfl
  | cons a rest ih =>
    have ha := h a (by simp)
    have hr := ih (fun x hx => h x (by simp [hx]))
    simp only [filterE, ha, hr]
    rfl

theorem consistency_vars_single (pre : List Int) (p : Int) (hp : p ∈ pre) :
    consistency_vars pre 0 [|p|] = .ok () := by
  have hsome : (pre.find? (fun q => |q| == |p|)).isSome :=
    List.find?_isSome.mpr ⟨p, hp, by simp⟩
  obtain ⟨q, hq⟩ := Option.isSome_iff_exists.mp hsome
  simp [consistency_vars, hq]

theorem consistency_check_of_single (pre : List Int) (l : List Int)
    (h : ∀ p ∈ l, p ∈ pre) :
    consistency_check pre (l.map (fun p =>
      IntegerSplit.mk [|p|] [IntegerSplitConstraint.mk .LessThan [[2]]]))
      = .ok () := by
  induction l with
  | nil => rfl
  | cons p rest ih =>
    simp only [List.map_cons, consistency_check]
    rw [consistency_vars_single pre p (h p (by simp))]
    exact ih (fun x hx => h x (by simp [hx]))

theorem consistency_check_default (pre : List Int) :
    consistency_check pre (default_splits pre) = .ok () :=
  consistency_check_of_single pre _ (fun _ hp => List.mem_of_mem_take hp)

theorem roundFittingAux_single_vars (l : List IntegerSplit)
    (h : ∀ s ∈ l, s.vars.length = 1) (d : Int) (hd : 0 ≤ d) :
    roundFittingAux l d = (min d.toNat l.length, min d.toNat l.length) := by
  induction l generalizing d with
  | nil => simp [roundFittingAux]
  | cons s rest ih =>
    have hs := h s (by simp)
    simp only [roundFittingAux, hs]
    by_cases hd1 : (0 : Int) ≤ d - 1
    · rw [if_pos (by push_cast; omega)]
      rw [ih (fun x hx => h x (by simp [hx])) _ (by push_cast; omega)]
      simp only [List.length_cons, Prod.mk.injEq]
      constructor <;> (push_cast; omega)
    · rw [if_neg (by push_cast; omega)]
      have : d.toNat = 0 := by omega
      simp [this]

theorem formula_vars_current_length (vars : List Int) (idx : Nat)
    (h : vars.length ≤ 64) :
    (formula_vars_current vars idx).length = vars.length := by
  simp [formula_vars_current, view_bits_lsb0]
  omega

theorem to_u64_single_lt_two (y : Int) : to_u64 [y] < 2 := by
  by_cases h : 0 < y <;> simp [to_u64, h]

theorem allSatisfiedE_lessthan2 (ps : List (IntegerSplit × (Nat × Nat)))
    (x : List Int)
    (h : ∀ p ∈ ps,
      p.1.constraints = [IntegerSplitConstraint.mk .LessThan [[2]]] ∧
      p.2.2 = p.2.1 + 1 ∧ p.2.2 ≤ x.length) :
    allSatisfiedE ps x = .ok true := by
  induction ps with
  | nil => rfl
  | cons p rest ih =>
    obtain ⟨hc, he, hl⟩ := h p (by simp)
    obtain ⟨s, b, e⟩ := p
    simp only at hc he hl
    subst he
    have hslice : sliceE x b (b + 1) = .ok ((x.drop b).take 1) := by
      simp [sliceE]
      omega
    have hlen1 : ((x.drop b).take 1).length = 1 := by
      simp
      omega
    obtain ⟨y, hy⟩ := List.length_eq_one.mp hlen1
    have hsat : IntegerSplit.satisfiedE s ((x.drop b).take 1) = .ok true := by
      rw [hy]
      simp [IntegerSplit.satisfiedE, IntegerSplit.satisfied_with_num, hc,
        IntegerSplitConstraint.satisfied, IntegerSplitConstraint.target00]
      have h2 : u64_of_i32 2 = 2 := by decide
      rw [h2]
      exact to_u64_single_lt_two y
    have hrest := ih (fun q hq => h q (by simp [hq]))
    simp [allSatisfiedE, hslice, hsat, hrest]

/-! ## Claims -/

/-- C1.  The spec says `nr_of_splits()` of an `Equals` split with distinct
alternatives counts the distinct alternatives.  The code instead takes the
bit view of the loop bound `n = 2^k` (whose low `k` bits are all zero)
rather than of the loop index, and feeds 0/1 integers where signed literals
are expected, so no `Equals` alternative ever matches: the split with one
alternative `1` over one variable yields 0 instead of 1, even though the
embedded enumerator (which the reducer must agree with per the spec) emits
exactly one assumption vector for the same split. -/
theorem c1_equals_nr_of_splits_contradicts_enumerator :
    IntegerSplit.nr_of_splits ⟨[1], [⟨.Equals, [[1]]⟩]⟩ = 0 ∧
      Formula.produce_splits ⟨[⟨[1], [⟨.Equals, [[1]]⟩]⟩], [-1], [[1]], 1, 1⟩ 1
        = .ok [[1]] := by
  constructor
  · decide
  · rfl

/-- The `u64` power `2^k` does not wrap below exponent 64. -/
theorem pow2_mod_u64_of_lt (k : Nat) (hk : k < 64) :
    (2 ^ k) % 2 ^ 64 = 2 ^ k :=
  Nat.mod_eq_of_lt (Nat.pow_lt_pow_right (by omega) hk)

/-- C6 (counterexample).  At 64 variables the `u64` bound
`base.pow(vars.len())` wraps to 0 (release builds; debug builds panic at
the overflow), so `nr_of_splits` counts an empty range and returns 0,
while the claimed value `min b 2^k` is 3. -/
theorem c6_counterexample :
    IntegerSplit.nr_of_splits
        ⟨List.replicate 64 1, [⟨.LessThan, [[3]]⟩]⟩ = 0 ∧
      min ((3 : Int)).toNat (2 ^ (List.replicate 64 (1 : Int)).length)
        = 3 := by
  constructor
  · rfl
  · rw [List.length_replicate]
    rw [min_eq_left]
    · rfl
    · show 3 ≤ 2 ^ 64
      calc (3 : Nat) ≤ 2 ^ 2 := by omega
        _ ≤ 2 ^ 64 := Nat.pow_le_pow_right (by omega) (by omega)

/-- C6 (amended).  An `IntegerSplit` with `k < 64` variables and a single
`LessThan b` constraint (with a positive 32-bit bound) has
`nr_of_splits() = min b 2^k`: the `LessThan` test ignores the bit-view
argument and simply compares the loop index with the bound.  At `k >= 64`
the `u64` bound `base.pow(k)` wraps to 0 (release) or the power overflow
aborts (debug), so the program never returns `min b 2^k` there (see the
counterexample). -/
theorem c6_nr_of_splits_lessthan (vars : List Int) (b : Int)
    (hk : vars.length < 64) (hb : 0 < b) (hb32 : b < 2 ^ 31) :
    IntegerSplit.nr_of_splits ⟨vars, [⟨.LessThan, [[b]]⟩]⟩
      = min b.toNat (2 ^ vars.length) := by
  have hmod : u64_of_i32 b = b.toNat := u64_of_i32_eq_toNat b hb.le (by omega)
  have h : IntegerSplit.nr_of_splits ⟨vars, [⟨.LessThan, [[b]]⟩]⟩
      = ((List.range (2 ^ vars.length)).filter
          (fun i => decide (i < b.toNat))).length := by
    simp only [IntegerSplit.nr_of_splits]
    rw [pow2_mod_u64_of_lt _ hk]
    congr 1
    apply List.filter_congr
    intro i _
    simp [IntegerSplit.satisfied_with_num, IntegerSplitConstraint.satisfied,
      IntegerSplitConstraint.target00, hmod]
  rw [h, length_filter_range_lt]

/-- Witness for C6 at `vars = [1, 2]`, `b = 3`. -/
theorem c6_nr_of_splits_lessthan_witness :
    IntegerSplit.nr_of_splits ⟨[1, 2], [⟨.LessThan, [[3]]⟩]⟩
      = min ((3 : Int)).toNat (2 ^ ([1, 2] : List Int).length) :=
  c6_nr_of_splits_lessthan [1, 2] 3 (by norm_num) (by norm_num) (by norm_num)

theorem default_splits_length (pre : List Int) :
    (default_splits pre).length = min pre.length 64 := by
  simp [default_splits]

theorem default_splits_mem (pre : List Int) (s : IntegerSplit)
    (hs : s ∈ default_splits pre) :
    ∃ p, s = IntegerSplit.mk [|p|]
      [IntegerSplitConstraint.mk .LessThan [[2]]] := by
  unfold default_splits at hs
  obtain ⟨p, _, rfl⟩ := List.mem_map.mp hs
  exact ⟨p, rfl⟩

theorem parse_post_no_splits (pre : List Int) (mat : List (List Int))
    (nv nc : Int) :
    parse_post [] pre mat nv nc
      = .ok ⟨default_splits pre, pre, mat, nv, nc⟩ := by
  by_cases hp : 0 < pre.length
  · simp [parse_post, fixup_splits, hp, consistency_check_default pre]
  · have hpre : pre = [] := List.length_eq_zero.mp (by omega)
    subst hpre
    simp [parse_post, fixup_splits, default_splits, consistency_check]

theorem split_ranges_replicate_one (t : Nat) :
    split_ranges (List.replicate t 1)
      = (List.range t).map (fun i => (i, i + 1)) := by
  unfold split_ranges
  rw [List.length_replicate]
  apply List.map_congr_left
  intro i hi
  rw [List.mem_range] at hi
  rw [List.take_replicate, min_eq_left hi.le]
  have hsum : (List.replicate i (1 : Nat)).sum = i := by simp
  have hget : (List.replicate t (1 : Nat)).getD i 0 = 1 := by
    simp [List.getD_eq_getElem?_getD, List.getElem?_replicate, hi]
  rw [hsum, hget]

theorem produce_embedded_single_l2 (f : Formula) (t : Nat)
    (hsplits : 0 < f.splits.length)
    (ht : t ≤ f.splits.length) (ht64 : t < 64)
    (hs : ∀ s ∈ f.splits, ∃ p, s = IntegerSplit.mk [|p|]
      [IntegerSplitConstraint.mk .LessThan [[2]]]) :
    f.produce_splits_from_embedded t t
      = .ok ((List.range (2 ^ t)).map (fun idx =>
          formula_vars_current
            (((f.splits.take t).map (fun s => s.vars)).flatten) idx)) := by
  have husedlen : (f.splits.take t).length = t := by
    rw [List.length_take]
    omega
  have hsingle : ∀ s ∈ f.splits.take t, s.vars.length = 1 := by
    intro s hmem
    obtain ⟨p, rfl⟩ := hs s (List.mem_of_mem_take hmem)
    rfl
  have hlens : (f.splits.take t).map (fun s => s.vars.length)
      = List.replicate t 1 := by
    apply List.eq_replicate_iff.mpr
    refine ⟨by rw [List.length_map]; exact husedlen, ?_⟩
    intro b hb
    obtain ⟨s, hmem, rfl⟩ := List.mem_map.mp hb
    exact hsingle s hmem
  have hallvars : (((f.splits.take t).map (fun s => s.vars)).flatten).length
      = t := by
    rw [List.length_flatten, List.map_map]
    have hcomp : (List.length ∘ fun (s : IntegerSplit) => s.vars)
        = fun (s : IntegerSplit) => s.vars.length := rfl
    rw [hcomp, hlens]
    simp
  unfold Formula.produce_splits_from_embedded
  rw [if_neg (by omega)]
  dsimp only
  rw [pow2_mod_u64_of_lt t ht64]
  rw [hlens, split_ranges_replicate_one]
  apply filterE_all_true
  intro x hx
  obtain ⟨idx, _, rfl⟩ := List.mem_map.mp hx
  have hxlen : (formula_vars_current
      (((f.splits.take t).map (fun s => s.vars)).flatten) idx).length = t := by
    rw [formula_vars_current_length _ _ (by omega), hallvars]
  apply allSatisfiedE_lessthan2
  intro q hq
  obtain ⟨s, b, e⟩ := q
  have hq1 := (List.of_mem_zip hq).1
  have hq2 := (List.of_mem_zip hq).2
  obtain ⟨p, rfl⟩ := hs s (List.mem_of_mem_take hq1)
  obtain ⟨i, hi, hieq⟩ := List.mem_map.mp hq2
  rw [List.mem_range] at hi
  have hb : b = i := by
    have := congrArg Prod.fst hieq
    simpa using this.symm
  have he : e = i + 1 := by
    have := congrArg Prod.snd hieq
    simpa using this.symm
  subst hb
  subst he
  refine ⟨rfl, rfl, ?_⟩
  dsimp only
  rw [hxlen]
  omega

/-- C3 (amended).  Parsing a QBF with prefix of length `n` and no declared
integer splits synthesizes exactly `min n 64` default splits, one per
prefix position in order, each with a single `LessThan 2` constraint, and
`produce_splits d` then returns exactly `2 ^ min d (min n 64)` assumption
vectors for every depth `d` with `min d n < 64`.  At `min d n >= 64`
(possible only for `n >= 64`, `d >= 64`) the used depth is exactly 64 and
the `u64` power `base.pow(64)` wraps to 0 (release) or aborts (debug), so
the enumeration is empty instead of producing `2^64` vectors (see the
counterexample). -/
theorem c3_default_splitter_coverage (pre : List Int) (mat : List (List Int))
    (nv nc : Int) (d : Nat) (hd : min d pre.length < 64) :
    ∃ F : Formula,
      parse_post [] pre mat nv nc = .ok F ∧
      F.splits = (pre.take (min pre.length 64)).map
        (fun p => IntegerSplit.mk [|p|]
          [IntegerSplitConstraint.mk .LessThan [[2]]]) ∧
      ∃ l, F.produce_splits d = .ok l ∧
        l.length = 2 ^ min d (min pre.length 64) := by
  refine ⟨_, parse_post_no_splits pre mat nv nc, rfl, ?_⟩
  by_cases hp : 0 < pre.length
  · have hdlen : (default_splits pre).length = min pre.length 64 :=
      default_splits_length pre
    have hsingle : ∀ s ∈ default_splits pre, s.vars.length = 1 := by
      intro s hs
      obtain ⟨p, rfl⟩ := default_splits_mem pre s hs
      rfl
    have hfit : roundFittingAux (default_splits pre) ((d : Nat) : Int)
        = (min d (min pre.length 64), min d (min pre.length 64)) := by
      rw [roundFittingAux_single_vars _ hsingle _ (Int.natCast_nonneg d),
        hdlen, Int.toNat_natCast]
    have hembed := produce_embedded_single_l2
      ⟨default_splits pre, pre, mat, nv, nc⟩ (min d (min pre.length 64))
      (by show 0 < (default_splits pre).length; rw [hdlen]; omega)
      (by show min d (min pre.length 64) ≤ (default_splits pre).length
          rw [hdlen]; omega)
      (by omega)
      (fun s hs => default_splits_mem pre s hs)
    refine ⟨(List.range (2 ^ (min d (min pre.length 64)))).map
        (fun idx => formula_vars_current
          ((((default_splits pre).take (min d (min pre.length 64))).map
            (fun s => s.vars)).flatten) idx), ?_, ?_⟩
    · show Formula.produce_splits _ d = _
      unfold Formula.produce_splits
      rw [if_pos (show 0 <
        (Formula.mk (default_splits pre) pre mat nv nc).splits.length by
          show 0 < (default_splits pre).length; rw [hdlen]; omega)]
      dsimp only [Formula.embedded_splits_round_fitting]
      rw [hfit]
      exact hembed
    · rw [List.length_map, List.length_range]
  · have hpre : pre = [] := List.length_eq_zero.mp (by omega)
    subst hpre
    refine ⟨_, rfl, ?_⟩
    simp [Formula.produce_splits, default_splits,
      Formula.produce_splits_from_prefix_expansion]

/-- C3 (counterexample).  A 64-variable prefix with no declared splits
yields 64 default splits; at depth 64 the used depth is 64, the `u64`
power wraps to 0, and `produce_splits` returns 0 assumption vectors
instead of the `2^min(64,64,64) = 2^64` the original claim requires. -/
theorem c3_counterexample :
    ∃ F : Formula,
      parse_post [] ((List.range 64).map (fun i => ((i : Int) + 1))) [] 64 0
        = .ok F ∧
      F.splits.length = 64 ∧
      F.produce_splits 64 = .ok [] := by
  refine ⟨_, parse_post_no_splits _ _ _ _, ?_, ?_⟩
  · rfl
  · rfl

/-- Witness for C3 at `pre = [1, -2]`, `d = 1`. -/
theorem c3_default_splitter_coverage_witness :
    ∃ F : Formula,
      parse_post [] [1, -2] [[1]] 2 1 = .ok F ∧
      F.splits = (([1, -2] : List Int).take
          (min ([1, -2] : List Int).length 64)).map
        (fun p => IntegerSplit.mk [|p|]
          [IntegerSplitConstraint.mk .LessThan [[2]]]) ∧
      ∃ l, F.produce_splits 1 = .ok l ∧
        l.length = 2 ^ min 1 (min ([1, -2] : List Int).length 64) :=
  c3_default_splitter_coverage [1, -2] [[1]] 2 1 1 (by norm_num)

theorem formula_vars_current_length_eq (vars : List Int) (idx : Nat) :
    (formula_vars_current vars idx).length = min 64 vars.length := by
  simp [formula_vars_current, view_bits_lsb0]

theorem filterE_head_error {α : Type} (p : α → Except String Bool) (a : α)
    (l : List α) (m : String) (h : p a = .error m) :
    filterE p (a :: l) = .error m := by
  simp [filterE, h]

theorem split_ranges_cons_head (l0 : Nat) (ls : List Nat) :
    ∃ tail, split_ranges (l0 :: ls) = (0, l0) :: tail := by
  unfold split_ranges
  rw [List.length_cons, List.range_succ_eq_map, List.map_cons]
  refine ⟨List.map ((fun i => ((List.take i (l0 :: ls)).sum,
    (List.take i (l0 :: ls)).sum + (l0 :: ls).getD i 0)) ∘ Nat.succ)
    (List.range ls.length), ?_⟩
  rw [List.map_map]
  congr 1
  simp

theorem to_u64_single_le_one (y : Int) : to_u64 [y] ≤ 1 := by
  have := to_u64_single_lt_two y
  omega

theorem allSatisfiedE_slice_error (s : IntegerSplit) (r : Nat × Nat)
    (rest : List (IntegerSplit × (Nat × Nat))) (x : List Int) (m : String)
    (h : sliceE x r.1 r.2 = .error m) :
    allSatisfiedE ((s, r) :: rest) x = .error m := by
  simp [allSatisfiedE, h]

theorem allSatisfiedE_sat_error (s : IntegerSplit) (r : Nat × Nat)
    (rest : List (IntegerSplit × (Nat × Nat))) (x : List Int)
    (sl : List Int) (m : String)
    (h1 : sliceE x r.1 r.2 = .ok sl) (h2 : s.satisfiedE sl = .error m) :
    allSatisfiedE ((s, r) :: rest) x = .error m := by
  simp [allSatisfiedE, h1, h2]

theorem flatten_singleton_map {α β : Type} (g : α → β) (l : List α) :
    (l.map (fun a => [g a])).flatten = l.map g := by
  induction l with
  | nil => rfl
  | cons a t ih => simp [ih]

theorem fixup_splits_all_empty_concat (pre : List Int)
    (l : List IntegerSplit) (start : Nat) (out : List IntegerSplit)
    (hvars : ∀ s ∈ l, s.vars = [])
    (hok : fixup_splits pre l start = .ok out) :
    ∃ k, start ≤ k ∧
      (out.map (fun s => s.vars)).flatten
        = ((pre.drop start).take (k - start)).map (fun x => |x|) := by
  induction l generalizing start out with
  | nil =>
    unfold fixup_splits at hok
    cases hok
    exact ⟨start, le_refl _, by simp⟩
  | cons s t ih =>
    have hsv : s.vars = [] := hvars s (by simp)
    unfold fixup_splits at hok
    by_cases hc : s.constraints.length < 1
    · rw [if_pos hc] at hok
      cases hok
    · rw [if_neg hc, if_pos (by rw [hsv]; rfl)] at hok
      cases hnb : constraint_nr_of_bits (s.constraints.headD ⟨.LessThan, []⟩)
        with
      | error e => rw [hnb] at hok; simp at hok
      | ok nb =>
        rw [hnb, ok_bind] at hok
        by_cases hrange : start + nb ≤ pre.length
        · rw [if_pos hrange] at hok
          cases htail : fixup_splits pre t (start + nb) with
          | error e => rw [htail] at hok; simp at hok
          | ok tail =>
            rw [htail, ok_bind] at hok
            cases hok
            obtain ⟨k, hk1, hk2⟩ :=
              ih (start + nb) tail
                (fun x hx => hvars x (List.mem_cons_of_mem s hx)) htail
            refine ⟨k, by omega, ?_⟩
            rw [List.map_cons, List.flatten_cons, hk2]
            rw [← List.map_append]
            congr 1
            have harith : k - start = nb + (k - (start + nb)) := by omega
            have hdd : pre.drop (start + nb) = (pre.drop start).drop nb := by
              rw [List.drop_drop]
            rw [hdd, harith, List.take_add]
        · rw [if_neg hrange] at hok
          cases hok

/-- C8 (amended).  For every successful run of the split fixup and
post-processing in which every declared integer split omits its variables
(so the variables are inferred from the prefix, or default splits are
synthesized), the split variables concatenated in declaration order equal
the first `k` absolute values of the prefix for some `k`.  (A split with
explicitly declared variables need not align with the prefix; see the
counterexample.) -/
theorem c8_inferred_splits_prefix (splits0 : List IntegerSplit)
    (pre : List Int) (mat : List (List Int)) (nv nc : Int) (F : Formula)
    (hvars : ∀ s ∈ splits0, s.vars = [])
    (hok : parse_post splits0 pre mat nv nc = .ok F) :
    ∃ k, (F.splits.map (fun s => s.vars)).flatten
      = (F.prefix_.take k).map (fun x => |x|) := by
  unfold parse_post at hok
  cases hfix : fixup_splits pre splits0 0 with
  | error e => rw [hfix] at hok; simp at hok
  | ok fixed =>
    rw [hfix, ok_bind] at hok
    dsimp only at hok
    by_cases hcond : fixed.length = 0 ∧ 0 < pre.length
    · rw [if_pos hcond, consistency_check_default pre, ok_bind] at hok
      cases hok
      refine ⟨min pre.length 64, ?_⟩
      show ((default_splits pre).map (fun s => s.vars)).flatten = _
      unfold default_splits
      rw [List.map_map]
      exact flatten_singleton_map _ _
    · rw [if_neg hcond] at hok
      cases hcons : consistency_check pre fixed with
      | error e => rw [hcons] at hok; simp at hok
      | ok u =>
        rw [hcons, ok_bind] at hok
        cases hok
        obtain ⟨k, hk0, hk⟩ :=
          fixup_splits_all_empty_concat pre splits0 0 fixed hvars hfix
        refine ⟨k, ?_⟩
        show (fixed.map _).flatten = _
        rw [hk]
        simp

/-- Witness for the amended C8: one `Equals` split without variables over
the prefix `e 1 2`. -/
theorem c8_inferred_splits_prefix_witness :
    ∃ k, (((Formula.mk [⟨[1], [⟨.Equals, [[1]]⟩]⟩] [-1, -2] [[1]] 2 1).splits.map
        (fun s => s.vars)).flatten)
      = ((Formula.mk [⟨[1], [⟨.Equals, [[1]]⟩]⟩] [-1, -2] [[1]] 2 1).prefix_.take
          k).map (fun x => |x|) :=
  c8_inferred_splits_prefix [⟨[], [⟨.Equals, [[1]]⟩]⟩] [-1, -2] [[1]] 2 1
    (Formula.mk [⟨[1], [⟨.Equals, [[1]]⟩]⟩] [-1, -2] [[1]] 2 1)
    (by intro s hs; rw [List.mem_singleton] at hs; subst hs; rfl)
    (by rfl)

theorem minByWall_spec (l : List SolverResult) (a : SolverResult)
    (h : minByWall l = some a) :
    a ∈ l ∧ ∀ r ∈ l, a.wall_seconds ≤ r.wall_seconds := by
  have key : ∀ (t : List SolverResult) (acc : SolverResult),
      (t.foldl (fun acc x =>
        if x.wall_seconds < acc.wall_seconds then x else acc) acc) ∈ acc :: t ∧
      ∀ r ∈ acc :: t,
        (t.foldl (fun acc x =>
          if x.wall_seconds < acc.wall_seconds then x else acc)
            acc).wall_seconds ≤ r.wall_seconds := by
    intro t
    induction t with
    | nil => exact fun acc => ⟨by simp, by simp⟩
    | cons x t ih =>
      intro acc
      obtain ⟨hmem, hbd⟩ := ih (if x.wall_seconds < acc.wall_seconds
        then x else acc)
      constructor
      · simp only [List.foldl_cons]
        rcases List.mem_cons.mp hmem with h1 | h1
        · rw [h1]
          by_cases hx : x.wall_seconds < acc.wall_seconds <;>
            simp [hx]
        · simp [h1]
      · intro r hr
        simp only [List.foldl_cons]
        have hsplit : (if x.wall_seconds < acc.wall_seconds then x
            else acc).wall_seconds ≤ acc.wall_seconds ∧
            (if x.wall_seconds < acc.wall_seconds then x
            else acc).wall_seconds ≤ x.wall_seconds := by
          by_cases hx : x.wall_seconds < acc.wall_seconds
          · rw [if_pos hx]
            exact ⟨le_of_lt hx, le_refl _⟩
          · rw [if_neg hx]
            exact ⟨le_refl _, not_lt.mp hx⟩
        have hfoldbd := hbd (if x.wall_seconds < acc.wall_seconds then x
          else acc) (by simp)
        rcases List.mem_cons.mp hr with h1 | h1
        · rw [h1]
          exact le_trans hfoldbd hsplit.1
        · rcases List.mem_cons.mp h1 with h2 | h2
          · rw [h2]
            exact le_trans hfoldbd hsplit.2
          · exact hbd r (by simp [h2])
  cases l with
  | nil => cases h
  | cons a0 t =>
    unfold minByWall at h
    obtain ⟨hmem, hbd⟩ := key t a0
    cases h
    exact ⟨hmem, hbd⟩

theorem maxByWall_spec (l : List SolverResult) (a : SolverResult)
    (h : maxByWall l = some a) :
    a ∈ l ∧ ∀ r ∈ l, r.wall_seconds ≤ a.wall_seconds := by
  have key : ∀ (t : List SolverResult) (acc : SolverResult),
      (t.foldl (fun acc x =>
        if acc.wall_seconds > x.wall_seconds then acc else x) acc) ∈ acc :: t ∧
      ∀ r ∈ acc :: t,
        r.wall_seconds ≤ (t.foldl (fun acc x =>
          if acc.wall_seconds > x.wall_seconds then acc else x)
            acc).wall_seconds := by
    intro t
    induction t with
    | nil => exact fun acc => ⟨by simp, by simp⟩
    | cons x t ih =>
      intro acc
      obtain ⟨hmem, hbd⟩ := ih (if acc.wall_seconds > x.wall_seconds
        then acc else x)
      constructor
      · simp only [List.foldl_cons]
        rcases List.mem_cons.mp hmem with h1 | h1
        · rw [h1]
          by_cases hx : acc.wall_seconds > x.wall_seconds <;>
            simp [hx]
        · simp [h1]
      · intro r hr
        simp only [List.foldl_cons]
        have hsplit : acc.wall_seconds ≤ (if acc.wall_seconds > x.wall_seconds
            then acc else x).wall_seconds ∧
            x.wall_seconds ≤ (if acc.wall_seconds > x.wall_seconds then acc
            else x).wall_seconds := by
          by_cases hx : acc.wall_seconds > x.wall_seconds
          · rw [if_pos hx]
            exact ⟨le_refl _, le_of_lt hx⟩
          · rw [if_neg hx]
            exact ⟨not_lt.mp hx, le_refl _⟩
        have hfoldbd := hbd (if acc.wall_seconds > x.wall_seconds then acc
          else x) (by simp)
        rcases List.mem_cons.mp hr with h1 | h1
        · rw [h1]
          exact le_trans hsplit.1 hfoldbd
        · rcases List.mem_cons.mp h1 with h2 | h2
          · rw [h2]
            exact le_trans hsplit.2 hfoldbd
          · exact hbd r (by simp [h2])
  cases l with
  | nil => cases h
  | cons a0 t =>
    unfold maxByWall at h
    obtain ⟨hmem, hbd⟩ := key t a0
    cases h
    exact ⟨hmem, hbd⟩

theorem chunk_reduce_ok (quant : Quantifier) (c : List SolverResult)
    (hne : c ≠ []) : ∃ r, chunk_reduce quant c = .ok r := by
  have hminSat : c.any (fun r => r.result == .Sat) = true →
      ∃ mn, minByWall (c.filter (fun r => r.result == .Sat)) = some mn := by
    intro hany
    obtain ⟨r, hr, hsat⟩ := List.any_eq_true.mp hany
    cases hmin : minByWall (c.filter (fun r => r.result == .Sat)) with
    | some mn => exact ⟨mn, rfl⟩
    | none =>
      exfalso
      have : r ∈ c.filter (fun r => r.result == .Sat) :=
        List.mem_filter.mpr ⟨hr, hsat⟩
      cases hcf : c.filter (fun r => r.result == .Sat) with
      | nil => rw [hcf] at this; cases this
      | cons a t => rw [hcf] at hmin; unfold minByWall at hmin; cases hmin
  have hmaxSat : c.all (fun r => r.result == .Sat) = true →
      ∃ mx, maxByWall (c.filter (fun r => r.result == .Sat)) = some mx := by
    intro hall
    have hfe : c.filter (fun r => r.result == .Sat) = c :=
      List.filter_eq_self.mpr (List.all_eq_true.mp hall)
    rw [hfe]
    cases c with
    | nil => exact absurd rfl hne
    | cons a t => exact ⟨_, rfl⟩
  have hminUnsat : c.any (fun r => r.result == .Unsat) = true →
      ∃ mn, minByWall (c.filter (fun r => r.result == .Unsat)) = some mn := by
    intro hany
    obtain ⟨r, hr, hsat⟩ := List.any_eq_true.mp hany
    cases hmin : minByWall (c.filter (fun r => r.result == .Unsat)) with
    | some mn => exact ⟨mn, rfl⟩
    | none =>
      exfalso
      have : r ∈ c.filter (fun r => r.result == .Unsat) :=
        List.mem_filter.mpr ⟨hr, hsat⟩
      cases hcf : c.filter (fun r => r.result == .Unsat) with
      | nil => rw [hcf] at this; cases this
      | cons a t => rw [hcf] at hmin; unfold minByWall at hmin; cases hmin
  have hmaxUnsat : c.all (fun r => r.result == .Unsat) = true →
      ∃ mx, maxByWall (c.filter (fun r => r.result == .Unsat)) = some mx := by
    intro hall
    have hfe : c.filter (fun r => r.result == .Unsat) = c :=
      List.filter_eq_self.mpr (List.all_eq_true.mp hall)
    rw [hfe]
    cases c with
    | nil => exact absurd rfl hne
    | cons a t => exact ⟨_, rfl⟩
  cases quant with
  | Exists =>
    unfold chunk_reduce
    by_cases hany : c.any (fun r => r.result == .Sat) = true
    · obtain ⟨mn, hmn⟩ := hminSat hany
      rw [if_pos hany, hmn]
      exact ⟨_, rfl⟩
    · rw [if_neg hany]
      by_cases hall : c.all (fun r => r.result == .Unsat) = true
      · obtain ⟨mx, hmx⟩ := hmaxUnsat hall
        rw [if_pos hall, hmx]
        exact ⟨_, rfl⟩
      · rw [if_neg hall]
        exact ⟨_, rfl⟩
  | Forall =>
    unfold chunk_reduce
    by_cases hall : c.all (fun r => r.result == .Sat) = true
    · obtain ⟨mx, hmx⟩ := hmaxSat hall
      rw [if_pos hall, hmx]
      exact ⟨_, rfl⟩
    · rw [if_neg hall]
      by_cases hany : c.any (fun r => r.result == .Unsat) = true
      · obtain ⟨mn, hmn⟩ := hminUnsat hany
        rw [if_pos hany, hmn]
        exact ⟨_, rfl⟩
      · rw [if_neg hany]
        exact ⟨_, rfl⟩

theorem chunk_reduce_forall_spec (c : List SolverResult) (r : SolverResult)
    (h : chunk_reduce .Forall c = .ok r) :
    ((∀ s ∈ c, s.result = .Sat) →
      r.result = .Sat ∧ isMaxWallOf r.wall_seconds c) ∧
    ((∃ s ∈ c, s.result = .Unsat) →
      r.result = .Unsat ∧
      isMinWallOf r.wall_seconds
        (c.filter (fun s => s.result == .Unsat))) ∧
    ((¬ ∀ s ∈ c, s.result = .Sat) → (¬ ∃ s ∈ c, s.result = .Unsat) →
      r = ⟨10000000, .Timeout, "(no solver)"⟩) := by
  unfold chunk_reduce at h
  refine ⟨?_, ?_, ?_⟩
  · intro hall
    have hallb : c.all (fun s => s.result == .Sat) = true :=
      List.all_eq_true.mpr (fun s hs => by
        rw [beq_iff_eq]
        exact hall s hs)
    rw [if_pos hallb] at h
    have hfe : c.filter (fun s => s.result == .Sat) = c :=
      List.filter_eq_self.mpr (List.all_eq_true.mp hallb)
    rw [hfe] at h
    cases hmx : maxByWall c with
    | none => rw [hmx] at h; cases h
    | some mx =>
      rw [hmx] at h
      cases h
      obtain ⟨hmem, hbd⟩ := maxByWall_spec c mx hmx
      exact ⟨rfl, List.mem_map.mpr ⟨mx, hmem, rfl⟩, hbd⟩
  · intro hex
    obtain ⟨s0, hs0, hs0u⟩ := hex
    have hnall : c.all (fun s => s.result == .Sat) ≠ true := by
      intro hallb
      have := List.all_eq_true.mp hallb s0 hs0
      rw [beq_iff_eq, hs0u] at this
      cases this
    have hanyb : c.any (fun s => s.result == .Unsat) = true :=
      List.any_eq_true.mpr ⟨s0, hs0, by rw [beq_iff_eq]; exact hs0u⟩
    rw [if_neg hnall, if_pos hanyb] at h
    cases hmn : minByWall (c.filter (fun s => s.result == .Unsat)) with
    | none => rw [hmn] at h; cases h
    | some mn =>
      rw [hmn] at h
      cases h
      obtain ⟨hmem, hbd⟩ := minByWall_spec _ mn hmn
      exact ⟨rfl, List.mem_map.mpr ⟨mn, hmem, rfl⟩, hbd⟩
  · intro hnall hnex
    have hnallb : c.all (fun s => s.result == .Sat) ≠ true := by
      intro hallb
      exact hnall (fun s hs => beq_iff_eq.mp (List.all_eq_true.mp hallb s hs))
    have hnanyb : c.any (fun s => s.result == .Unsat) ≠ true := by
      intro hanyb
      obtain ⟨s0, hs0, hs0u⟩ := List.any_eq_true.mp hanyb
      exact hnex ⟨s0, hs0, beq_iff_eq.mp hs0u⟩
    rw [if_neg hnallb, if_neg hnanyb] at h
    cases h
    rfl

theorem chunk_reduce_exists_spec (c : List SolverResult) (r : SolverResult)
    (h : chunk_reduce .Exists c = .ok r) :
    ((∃ s ∈ c, s.result = .Sat) →
      r.result = .Sat ∧
      isMinWallOf r.wall_seconds
        (c.filter (fun s => s.result == .Sat))) ∧
    ((¬ ∃ s ∈ c, s.result = .Sat) → (∀ s ∈ c, s.result = .Unsat) →
      r.result = .Unsat ∧ isMaxWallOf r.wall_seconds c) ∧
    ((¬ ∃ s ∈ c, s.result = .Sat) → (¬ ∀ s ∈ c, s.result = .Unsat) →
      r = ⟨10000000, .Timeout, "(no solver)"⟩) := by
  unfold chunk_reduce at h
  refine ⟨?_, ?_, ?_⟩
  · intro hex
    obtain ⟨s0, hs0, hs0s⟩ := hex
    have hanyb : c.any (fun s => s.result == .Sat) = true :=
      List.any_eq_true.mpr ⟨s0, hs0, by rw [beq_iff_eq]; exact hs0s⟩
    rw [if_pos hanyb] at h
    cases hmn : minByWall (c.filter (fun s => s.result == .Sat)) with
    | none => rw [hmn] at h; cases h
    | some mn =>
      rw [hmn] at h
      cases h
      obtain ⟨hmem, hbd⟩ := minByWall_spec _ mn hmn
      exact ⟨rfl, List.mem_map.mpr ⟨mn, hmem, rfl⟩, hbd⟩
  · intro hnex hall
    have hnanyb : c.any (fun s => s.result == .Sat) ≠ true := by
      intro hanyb
      obtain ⟨s0, hs0, hs0s⟩ := List.any_eq_true.mp hanyb
      exact hnex ⟨s0, hs0, beq_iff_eq.mp hs0s⟩
    have hallb : c.all (fun s => s.result == .Unsat) = true :=
      List.all_eq_true.mpr (fun s hs => by
        rw [beq_iff_eq]
        exact hall s hs)
    rw [if_neg hnanyb, if_pos hallb] at h
    have hfe : c.filter (fun s => s.result == .Unsat) = c :=
      List.filter_eq_self.mpr (List.all_eq_true.mp hallb)
    rw [hfe] at h
    cases hmx : maxByWall c with
    | none => rw [hmx] at h; cases h
    | some mx =>
      rw [hmx] at h
      cases h
      obtain ⟨hmem, hbd⟩ := maxByWall_spec c mx hmx
      exact ⟨rfl, List.mem_map.mpr ⟨mx, hmem, rfl⟩, hbd⟩
  · intro hnex hnall
    have hnanyb : c.any (fun s => s.result == .Sat) ≠ true := by
      intro hanyb
      obtain ⟨s0, hs0, hs0s⟩ := List.any_eq_true.mp hanyb
      exact hnex ⟨s0, hs0, beq_iff_eq.mp hs0s⟩
    have hnallb : c.all (fun s => s.result == .Unsat) ≠ true := by
      intro hallb
      exact hnall (fun s hs => beq_iff_eq.mp (List.all_eq_true.mp hallb s hs))
    rw [if_neg hnanyb, if_neg hnallb] at h
    cases h
    rfl

theorem mapM_ok_of_forall (p : Nat → Except String SolverResult)
    (l : List Nat) (h : ∀ a ∈ l, ∃ r, p a = .ok r) :
    ∃ out : List SolverResult, l.mapM p = .ok out ∧
      out.length = l.length ∧
      ∀ i, i < l.length →
        p (l.getD i 0) = .ok (out.getD i ⟨0, .Timeout, ""⟩) := by
  induction l with
  | nil => exact ⟨[], rfl, rfl, fun i hi => absurd hi (by simp)⟩
  | cons a t ih =>
    obtain ⟨r, hr⟩ := h a (by simp)
    obtain ⟨out, hout, hlen, hidx⟩ :=
      ih (fun x hx => h x (by simp [hx]))
    refine ⟨r :: out, ?_, by simp [hlen], ?_⟩
    · rw [List.mapM_cons, hr, hout]
      rfl
    · intro i hi
      cases i with
      | zero => simpa using hr
      | succ j =>
        have hj : j < t.length := by
          simp at hi
          omega
        simpa using hidx j hj

theorem chunk_length_of_lt (results : List SolverResult) (w x : Nat)
    (hw : 0 < w) (hx : x < results.length / w) :
    ((results.drop (x * w)).take w).length = w := by
  have h1 : x + 1 ≤ results.length / w := hx
  have h2 : (x + 1) * w ≤ (results.length / w) * w :=
    Nat.mul_le_mul_right w h1
  have h3 : (results.length / w) * w ≤ results.length :=
    Nat.div_mul_le_self results.length w
  rw [List.length_take, List.length_drop]
  have : (x + 1) * w = x * w + w := by ring
  omega

theorem reduce_result_ok (quant : Quantifier) (w : Nat)
    (results : List SolverResult) (hw : 0 < w) :
    ∃ out, reduce_result quant w results = .ok out ∧
      out.length = results.length / w ∧
      ∀ x, x < results.length / w →
        chunk_reduce quant ((results.drop (x * w)).take w)
          = .ok (out.getD x ⟨0, .Timeout, ""⟩) := by
  unfold reduce_result
  rw [if_neg (by omega)]
  obtain ⟨out, hout, hlen, hidx⟩ := mapM_ok_of_forall
    (fun x => chunk_reduce quant ((results.drop (x * w)).take w))
    (List.range (results.length / w))
    (fun x hx => by
      apply chunk_reduce_ok
      apply List.ne_nil_of_length_pos
      rw [chunk_length_of_lt results w x hw (List.mem_range.mp hx)]
      omega)
  refine ⟨out, hout, by simpa using hlen, ?_⟩
  intro x hx
  have := hidx x (by simpa using hx)
  rwa [List.getD_eq_getElem?_getD, List.getElem?_range hx,
    Option.getD_some] at this

/-- C5.  `reduce_result` splits the results into contiguous chunks of the
given width; at a universally quantified prefix position (positive prefix
entry) an all-`Sat` chunk fuses to `Sat` with the maximum wall time, a
chunk containing an `Unsat` fuses to `Unsat` with the minimum wall time
among its `Unsat` elements, and anything else fuses to the `Timeout`
sentinel; at an existentially quantified position (negative entry, or a
position past the end of the prefix) the dual aggregation applies. -/
theorem c5_reduce_result_aggregation (f : Formula) (pos w : Nat)
    (results : List SolverResult) (hw : 0 < w) :
    ∃ out, reduce_result ( quant_from_prefix f pos) w results = .ok out ∧
      out.length = results.length / w ∧
      ∀ x, x < results.length / w →
        (((pos < f.prefix_.length ∧ 0 < f.prefix_.getD pos 0) →
          ((∀ s ∈ (results.drop (x * w)).take w, s.result = .Sat) →
            (out.getD x ⟨0, .Timeout, ""⟩).result = .Sat ∧
            isMaxWallOf (out.getD x ⟨0, .Timeout, ""⟩).wall_seconds
              ((results.drop (x * w)).take w)) ∧
          ((∃ s ∈ (results.drop (x * w)).take w, s.result = .Unsat) →
            (out.getD x ⟨0, .Timeout, ""⟩).result = .Unsat ∧
            isMinWallOf (out.getD x ⟨0, .Timeout, ""⟩).wall_seconds
              (((results.drop (x * w)).take w).filter
                (fun s => s.result == .Unsat))) ∧
          ((¬ ∀ s ∈ (results.drop (x * w)).take w, s.result = .Sat) →
            (¬ ∃ s ∈ (results.drop (x * w)).take w, s.result = .Unsat) →
            out.getD x ⟨0, .Timeout, ""⟩
              = ⟨10000000, .Timeout, "(no solver)"⟩)) ∧
        ((f.prefix_.length ≤ pos ∨ f.prefix_.getD pos 0 < 0) →
          ((∃ s ∈ (results.drop (x * w)).take w, s.result = .Sat) →
            (out.getD x ⟨0, .Timeout, ""⟩).result = .Sat ∧
            isMinWallOf (out.getD x ⟨0, .Timeout, ""⟩).wall_seconds
              (((results.drop (x * w)).take w).filter
                (fun s => s.result == .Sat))) ∧
          ((¬ ∃ s ∈ (results.drop (x * w)).take w, s.result = .Sat) →
            (∀ s ∈ (results.drop (x * w)).take w, s.result = .Unsat) →
            (out.getD x ⟨0, .Timeout, ""⟩).result = .Unsat ∧
            isMaxWallOf (out.getD x ⟨0, .Timeout, ""⟩).wall_seconds
              ((results.drop (x * w)).take w)) ∧
          ((¬ ∃ s ∈ (results.drop (x * w)).take w, s.result = .Sat) →
            (¬ ∀ s ∈ (results.drop (x * w)).take w, s.result = .Unsat) →
            out.getD x ⟨0, .Timeout, ""⟩
              = ⟨10000000, .Timeout, "(no solver)"⟩))) := by
  obtain ⟨out, hout, hlen, hidx⟩ :=
    reduce_result_ok ( quant_from_prefix f pos) w results hw
  refine ⟨out, hout, hlen, ?_⟩
  intro x hx
  constructor
  · intro hforall
    have hq : quant_from_prefix f pos = .Forall := by
      unfold quant_from_prefix
      rw [if_neg (by omega), if_neg (by omega)]
    rw [hq] at hidx
    exact chunk_reduce_forall_spec _ _ (hidx x hx)
  · intro hexists
    have hq : quant_from_prefix f pos = .Exists := by
      unfold quant_from_prefix
      rcases hexists with h1 | h1
      · rw [if_pos (by omega)]
      · by_cases h2 : pos ≥ f.prefix_.length
        · rw [if_pos h2]
        · rw [if_neg h2, if_pos h1]
    rw [hq] at hidx
    exact chunk_reduce_exists_spec _ _ (hidx x hx)

/-- Witness for C5: four results under one universal split of width 4. -/
theorem c5_reduce_result_aggregation_witness :
    ∃ out, reduce_result
        ( quant_from_prefix (Formula.mk [] [1] [] 1 0) 0) 4
        [⟨3, .Sat, "a"⟩, ⟨5, .Unsat, "b"⟩, ⟨7, .Sat, "c"⟩, ⟨9, .Sat, "d"⟩]
      = .ok out := by
  obtain ⟨out, hout, -, -⟩ := c5_reduce_result_aggregation
    (Formula.mk [] [1] [] 1 0) 0 4
    [⟨3, .Sat, "a"⟩, ⟨5, .Unsat, "b"⟩, ⟨7, .Sat, "c"⟩, ⟨9, .Sat, "d"⟩]
    (by omega)
  exact ⟨out, hout⟩

theorem reduce_fold_zero (f : Formula) (l : List IntegerSplit)
    (hz : ∃ s ∈ l, s.nr_of_splits = 0) :
    ∀ (qpos : Nat) (acc : List SolverResult),
    ∃ m, reduce_fold f l qpos acc = .error m := by
  induction l with
  | nil =>
    obtain ⟨s, hs, _⟩ := hz
    cases hs
  | cons s t ih =>
    intro qpos acc
    by_cases hs0 : s.nr_of_splits = 0
    · refine ⟨"assertion failed: single_layer_width > 0", ?_⟩
      unfold reduce_fold reduce_result
      rw [if_pos hs0]
      rfl
    · have hz2 : ∃ x ∈ t, x.nr_of_splits = 0 := by
        obtain ⟨s2, hs2, h0⟩ := hz
        rcases List.mem_cons.mp hs2 with rfl | hmem
        · exact absurd h0 hs0
        · exact ⟨s2, hmem, h0⟩
      obtain ⟨out, hok, -, -⟩ := reduce_result_ok ( quant_from_prefix f qpos)
        s.nr_of_splits acc (Nat.pos_of_ne_zero hs0)
      obtain ⟨m, hm⟩ := ih hz2
        (if qpos > s.vars.length then qpos - s.vars.length else qpos) out
      refine ⟨m, ?_⟩
      unfold reduce_fold
      rw [hok, ok_bind]
      exact hm

theorem reduce_fold_len (f : Formula) (l : List IntegerSplit)
    (hpos : ∀ s ∈ l, s.nr_of_splits ≠ 0) :
    ∀ (qpos : Nat) (acc : List SolverResult),
    ∃ out, reduce_fold f l qpos acc = .ok out ∧
      out.length = acc.length / (l.map (fun s => s.nr_of_splits)).prod := by
  induction l with
  | nil =>
    intro qpos acc
    exact ⟨acc, rfl, by simp⟩
  | cons s t ih =>
    intro qpos acc
    obtain ⟨out1, hok1, hlen1, -⟩ := reduce_result_ok
      ( quant_from_prefix f qpos) s.nr_of_splits acc
      (Nat.pos_of_ne_zero (hpos s (by simp)))
    obtain ⟨out2, hok2, hlen2⟩ := ih (fun x hx => hpos x (by simp [hx]))
      (if qpos > s.vars.length then qpos - s.vars.length else qpos) out1
    refine ⟨out2, ?_, ?_⟩
    · unfold reduce_fold
      rw [hok1, ok_bind]
      exact hok2
    · rw [hlen2, hlen1, List.map_cons, List.prod_cons,
        Nat.div_div_eq_div_mul]

/-- C9.  `produce_statistics_from_run` fails fatally (with an assertion
panic) whenever it is given fewer results than the product of the widths
`nr_of_splits()` of the used splits requires, or some used split has
`nr_of_splits() = 0`; it never silently builds a `SolveStatistics` from the
incomplete results. -/
theorem c9_reduce_requires_complete_results (f : Formula)
    (results : List SolverResult) (split_count : Nat)
    (og : Option SolverResult)
    (hsc : split_count ≤ f.splits.length)
    (hbad : results.length <
        ((f.splits.take split_count).map (fun s => s.nr_of_splits)).prod
      ∨ ∃ s ∈ f.splits.take split_count, s.nr_of_splits = 0) :
    ∃ msg, produce_statistics_from_run f results split_count og
      = .error msg := by
  unfold produce_statistics_from_run
  rw [if_neg (by omega)]
  dsimp only
  by_cases hz : ∃ s ∈ f.splits.take split_count, s.nr_of_splits = 0
  · obtain ⟨m, hm⟩ := reduce_fold_zero f
      ((f.splits.take split_count).reverse)
      (by
        obtain ⟨s, hs, h0⟩ := hz
        exact ⟨s, List.mem_reverse.mpr hs, h0⟩)
      ((((f.splits.take split_count).reverse.map
        (fun s => s.vars.length)).sum) - 1)
      results
    exact ⟨m, by rw [hm]; rfl⟩
  · have hlt := hbad.resolve_right hz
    have hpos : ∀ s ∈ (f.splits.take split_count).reverse,
        s.nr_of_splits ≠ 0 :=
      fun s hs h0 => hz ⟨s, List.mem_reverse.mp hs, h0⟩
    obtain ⟨out, hok, hlen⟩ := reduce_fold_len f _ hpos
      ((((f.splits.take split_count).reverse.map
        (fun s => s.vars.length)).sum) - 1)
      results
    refine ⟨"assertion failed: solver_results.len() == 1", ?_⟩
    rw [hok, ok_bind]
    have hprod : ((f.splits.take split_count).reverse.map
        (fun s => s.nr_of_splits)).prod
        = ((f.splits.take split_count).map
          (fun s => s.nr_of_splits)).prod := by
      rw [List.map_reverse, List.prod_reverse]
    have hzero : out.length = 0 := by
      rw [hlen, hprod]
      exact Nat.div_eq_of_lt hlt
    rw [if_neg (by omega)]

/-- Witness for C9: one used split with `nr_of_splits() = 0` (a
single-variable `GreaterThan 1` constraint is never satisfied). -/
theorem c9_reduce_requires_complete_results_witness :
    ∃ msg, produce_statistics_from_run
        (Formula.mk [⟨[1], [⟨.GreaterThan, [[1]]⟩]⟩] [1] [] 1 0) [] 1 none
      = .error msg :=
  c9_reduce_requires_complete_results
    (Formula.mk [⟨[1], [⟨.GreaterThan, [[1]]⟩]⟩] [1] [] 1 0) [] 1 none
    (by decide)
    (Or.inr ⟨⟨[1], [⟨.GreaterThan, [[1]]⟩]⟩, by decide, by decide⟩)

set_option maxHeartbeats 2000000 in
/-- C2.  The claim says integer-only wall times are captured like
fractional ones.  The wall-time regex in the source,
`^\[runlim\] real:\s*(\d+(?:\.\d+))`, lacks the `?` on the fractional
group, so the integer-only line `[runlim] real: 42` produces no capture
and `wall_seconds` stays at its initial 0.0, while `42.5` is captured. -/
theorem c2_integer_wall_time_rejected :
    wall_time_capture ("[runlim] real: 42".toList) = none ∧
    wall_time_capture ("[runlim] real: 42.5".toList)
      = some (['4', '2'], ['5']) ∧
    (extract_result_from_lines ["[runlim] real: 42".toList] "n").wall_seconds
      = 0 ∧
    (extract_result_from_lines ["[runlim] real: 42.5".toList]
      "n").wall_seconds = 85 / 2 := by
  refine ⟨rfl, rfl, rfl, ?_⟩
  have h1 : extract_result_from_lines ["[runlim] real: 42.5".toList] "n"
      = ⟨capture_to_rat ['4', '2'] ['5'], .Timeout, "n"⟩ := rfl
  rw [h1]
  have h2 : digitsToNat 0 ['4', '2'] = 42 := rfl
  have h3 : digitsToNat 0 ['5'] = 5 := rfl
  show capture_to_rat ['4', '2'] ['5'] = 85 / 2
  unfold capture_to_rat
  rw [h2, h3]
  norm_num

set_option maxHeartbeats 2000000 in
/-- C7.  The claim says `parse_qdimacs` returns the `Err` branch of its
`Result` on malformed input rather than aborting.  The implementation
instead panics on every failure path: a missing `p cnf` header, a
non-terminating clause, and an illegal character in an `=` bit pattern all
abort via the `.expect("parser error")` on the pest result (and the
in-line `panic!` calls); the `Err` branch is never constructed. -/
theorem c7_parse_failures_panic :
    parse_qdimacs ("x".toList) = .panicked "parser error" ∧
    parse_qdimacs ("p cnf 1 1\n1".toList) = .panicked "parser error" ∧
    parse_qdimacs ("p cnf 2 1\ne 1 2 0\nIS 1 2 = 01 0x1 0\n1 -2 0".toList)
      = .panicked "parser error" := by
  exact ⟨rfl, rfl, rfl⟩

set_option maxHeartbeats 2000000 in
/-- C8 (counterexample).  The input declares `IS 3 < 2 0` with the
explicit variable 3 under the prefix `e 1 2 3`; the parse succeeds, but
the concatenated split variables `[3]` are not the first `k` absolute
prefix values for any `k`. -/
theorem c8_counterexample :
    ∃ F, parse_qdimacs ("p cnf 3 1\ne 1 2 3 0\nIS 3 < 2 0\n1 0".toList)
        = .ok F ∧
      ¬ ∃ k, (F.splits.map (fun s => s.vars)).flatten
        = (F.prefix_.take k).map (fun x => |x|) := by
  refine ⟨⟨[⟨[3], [⟨.LessThan, [[2]]⟩]⟩], [-1, -2, -3], [[1]], 3, 1⟩,
    rfl, ?_⟩
  rintro ⟨k, hk⟩
  rcases k with - | - | - | k <;> simp at hk

theorem digitChar_isDigit (d : Nat) : (digitChar d).isDigit = true := by
  unfold digitChar
  rcases d with - | - | - | - | - | - | - | - | - | d <;> rfl

theorem digitVal_digitChar (d : Nat) (h : d < 10) :
    digitVal (digitChar d) = d := by
  unfold digitChar
  rcases d with - | - | - | - | - | - | - | - | - | - | d
  all_goals first | rfl | omega

theorem natCharsAux_digits (fuel : Nat) :
    ∀ (n : Nat), ∀ c ∈ natCharsAux fuel n, c.isDigit = true := by
  induction fuel with
  | zero => intro n c hc; cases hc
  | succ fuel ih =>
    intro n c hc
    unfold natCharsAux at hc
    by_cases h : n < 10
    · rw [if_pos h] at hc
      simp at hc
      rw [hc]
      exact digitChar_isDigit n
    · rw [if_neg h] at hc
      rcases List.mem_append.mp hc with h1 | h1
      · exact ih _ c h1
      · simp at h1
        rw [h1]
        exact digitChar_isDigit _

theorem natChars_digits (n : Nat) : ∀ c ∈ natChars n, c.isDigit = true :=
  natCharsAux_digits (n + 1) n

theorem natChars_ne_nil (n : Nat) : natChars n ≠ [] := by
  unfold natChars natCharsAux
  by_cases h : n < 10
  · rw [if_pos h]
    simp
  · rw [if_neg h]
    simp

theorem digitsToNat_nil (acc : Nat) : digitsToNat acc [] = acc := rfl

theorem digitsToNat_cons (acc : Nat) (x : Char) (l : List Char) :
    digitsToNat acc (x :: l) = digitsToNat (acc * 10 + digitVal x) l := rfl

theorem parseLit_cons (c : Char) (rest : List Char) :
    parseLit (c :: rest)
      = if c = '-' then parseNegLit rest else parsePosLit (c :: rest) := rfl

theorem digitsToNat_append (acc : Nat) (xs : List Char) (c : Char) :
    digitsToNat acc (xs ++ [c]) = (digitsToNat acc xs) * 10 + digitVal c := by
  induction xs generalizing acc with
  | nil => rfl
  | cons x xs ih =>
    rw [List.cons_append, digitsToNat_cons, ih, digitsToNat_cons]

theorem digitsToNat_natCharsAux (fuel : Nat) :
    ∀ (n acc : Nat), n < fuel →
    digitsToNat acc (natCharsAux fuel n)
      = acc * 10 ^ (natCharsAux fuel n).length + n := by
  induction fuel with
  | zero => intro n acc h; omega
  | succ fuel ih =>
    intro n acc h
    unfold natCharsAux
    by_cases h10 : n < 10
    · rw [if_pos h10]
      rw [digitsToNat_cons, digitsToNat_nil, digitVal_digitChar n h10,
        List.length_singleton, pow_one]
    · rw [if_neg h10]
      rw [digitsToNat_append]
      have hdiv : n / 10 < fuel := by
        have := Nat.div_lt_self (show 0 < n by omega) (show 1 < 10 by omega)
        omega
      rw [ih (n / 10) acc hdiv]
      rw [List.length_append]
      rw [digitVal_digitChar _ (Nat.mod_lt n (by omega))]
      rw [List.length_singleton, pow_succ]
      set A := acc * 10 ^ (natCharsAux fuel (n / 10)).length with hA
      rw [show acc * (10 ^ (natCharsAux fuel (n / 10)).length * 10)
        = A * 10 by rw [hA]; ring]
      omega

theorem digitsToNat_natChars (n : Nat) : digitsToNat 0 (natChars n) = n := by
  have := digitsToNat_natCharsAux (n + 1) n 0 (by omega)
  simpa using this

theorem natChars_ne_digits (n : Nat) (u : List Char) (c : Char) (hcu : c ∈ u)
    (hc : ¬ c.isDigit = true) : natChars n ≠ u := by
  intro h
  exact hc (natChars_digits n c (h ▸ hcu))

theorem parsePnum_natChars (v : Nat) (h1 : 1 ≤ v) (h2 : v ≤ 2 ^ 31 - 1) :
    parsePnum (natChars v) = .ok v := by
  unfold parsePnum
  rw [if_pos ⟨natChars_ne_nil v, List.all_eq_true.mpr (natChars_digits v)⟩]
  rw [digitsToNat_natChars]
  rw [if_neg (by omega), if_neg (by omega)]

theorem parseNatI32_natChars (v : Nat) (h2 : v ≤ 2 ^ 31 - 1) :
    parseNatI32 (natChars v) = .ok v := by
  unfold parseNatI32
  rw [if_pos ⟨natChars_ne_nil v, List.all_eq_true.mpr (natChars_digits v)⟩]
  rw [digitsToNat_natChars]
  rw [if_neg (by omega)]

theorem intChars_nonneg (l : Int) (h : 0 ≤ l) :
    intChars l = natChars l.toNat := by
  unfold intChars
  rw [if_neg (by omega)]

theorem intChars_neg (l : Int) (h : l < 0) :
    intChars l = '-' :: natChars l.natAbs := by
  unfold intChars
  rw [if_pos h]

theorem parseLit_intChars (l : Int) (h0 : l ≠ 0) (hlb : -(2 ^ 31) ≤ l)
    (hub : l ≤ 2 ^ 31 - 1) : parseLit (intChars l) = .ok l := by
  by_cases hneg : l < 0
  · rw [intChars_neg l hneg, parseLit_cons, if_pos rfl]
    unfold parseNegLit
    rw [if_pos ⟨natChars_ne_nil _, List.all_eq_true.mpr (natChars_digits _)⟩]
    rw [digitsToNat_natChars]
    rw [if_neg (by omega), if_neg (by omega)]
    congr 1
    omega
  · have hpos : 0 < l := by omega
    rw [intChars_nonneg l (by omega)]
    cases hnc : natChars l.toNat with
    | nil => exact absurd hnc (natChars_ne_nil _)
    | cons c cs =>
      have hcd : c.isDigit = true :=
        natChars_digits _ c (by rw [hnc]; simp)
      have hcne : ¬ c = '-' := by
        intro hc
        rw [hc] at hcd
        exact absurd hcd (by decide)
      rw [parseLit_cons, if_neg hcne]
      unfold parsePosLit
      rw [if_pos ⟨by simp, by
        rw [← hnc]
        exact List.all_eq_true.mpr (natChars_digits _)⟩]
      rw [← hnc, digitsToNat_natChars]
      rw [if_neg (by omega), if_neg (by omega)]
      congr 1
      omega

theorem tokensGo_ws (ls : Bool) (d : Char) (cs : List Char)
    (hd : isWsChar d = true) :
    tokensGo (some []) ls (d :: cs) = tokensGo (some []) (d = '\n') cs := by
  show (if isWsChar d = true then _ else _) = _
  rw [if_pos hd]
  rw [if_pos rfl]

theorem tokensGo_acc (tok : List Char) (cur : List Char) (tail : List Char)
    (hnw : ∀ c ∈ tok, isWsChar c = false) :
    tokensGo (some cur) false (tok ++ tail)
      = tokensGo (some (tok.reverse ++ cur)) false tail := by
  induction tok generalizing cur with
  | nil => simp
  | cons c t ih =>
    have hc := hnw c (by simp)
    show (if isWsChar c = true then _ else _) = _
    rw [if_neg (by rw [hc]; simp)]
    rw [if_neg (by simp)]
    rw [show t.append tail = t ++ tail from rfl]
    rw [ih (c :: cur) (fun x hx => hnw x (by simp [hx]))]
    congr 1
    simp

theorem tokensGo_emit (ls : Bool) (tok : List Char) (d : Char)
    (tail : List Char) (hne : tok ≠ [])
    (hnw : ∀ c ∈ tok, isWsChar c = false)
    (hnc : ls = true → tok.headD ' ' ≠ 'c')
    (hd : isWsChar d = true) :
    tokensGo (some []) ls (tok ++ d :: tail)
      = tok :: tokensGo (some []) (d = '\n') tail := by
  cases tok with
  | nil => exact absurd rfl hne
  | cons c t =>
    have hcomment : ¬ (ls = true ∧ ([] : List Char) = [] ∧ c = 'c') := by
      rintro ⟨hls, -, hcc⟩
      exact hnc hls (by rw [show (c :: t).headD ' ' = c from rfl]; exact hcc)
    show (if isWsChar c = true then _ else _) = _
    rw [if_neg (by rw [hnw c (by simp)]; simp)]
    rw [if_neg hcomment]
    rw [show t.append (d :: tail) = t ++ d :: tail from rfl]
    rw [tokensGo_acc t [c] ((d :: tail))]
    · show (if isWsChar d = true then _ else _) = _
      rw [if_pos hd]
      rw [if_neg (by simp)]
      congr 1
      simp
    · exact fun x hx => hnw x (by simp [hx])

theorem isDigit_not_ws (c : Char) (h : c.isDigit = true) :
    isWsChar c = false := by
  by_contra hws
  rw [Bool.not_eq_false] at hws
  unfold isWsChar at hws
  simp only [Bool.or_eq_true, beq_iff_eq] at hws
  rcases hws with ((rfl | rfl) | rfl) | rfl <;> exact absurd h (by decide)

theorem intChars_not_ws (l : Int) : ∀ c ∈ intChars l, isWsChar c = false := by
  intro c hc
  unfold intChars at hc
  by_cases h : l < 0
  · rw [if_pos h] at hc
    rcases List.mem_cons.mp hc with rfl | h1
    · decide
    · exact isDigit_not_ws c (natChars_digits _ c h1)
  · rw [if_neg h] at hc
    exact isDigit_not_ws c (natChars_digits _ c hc)

theorem intChars_ne_nil (l : Int) : intChars l ≠ [] := by
  unfold intChars
  by_cases h : l < 0
  · rw [if_pos h]
    simp
  · rw [if_neg h]
    exact natChars_ne_nil _

theorem intChars_headD_ne_c (l : Int) : (intChars l).headD ' ' ≠ 'c' := by
  unfold intChars
  by_cases h : l < 0
  · rw [if_pos h, List.headD_cons]
    decide
  · rw [if_neg h]
    cases hnc : natChars l.toNat with
    | nil => exact absurd hnc (natChars_ne_nil _)
    | cons c cs =>
      have hcd : c.isDigit = true := natChars_digits _ c (by rw [hnc]; simp)
      show c ≠ 'c'
      intro hceq
      rw [hceq] at hcd
      exact absurd hcd (by decide)

theorem tokensGo_ws_flush (ls : Bool) (cur : List Char) (d : Char)
    (cs : List Char) (hd : isWsChar d = true) :
    tokensGo (some cur) ls (d :: cs)
      = (if cur = [] then [] else [cur.reverse])
        ++ tokensGo (some []) (d = '\n') cs := by
  show (if isWsChar d = true then _ else _) = _
  rw [if_pos hd]
  by_cases hcur : cur = [] <;> simp [hcur]

theorem tokensGo_flush_sp (ls : Bool) (cur : List Char) (cs : List Char) :
    tokensGo (some cur) ls (' ' :: cs)
      = (if cur = [] then [] else [cur.reverse])
        ++ tokensGo (some []) false cs := by
  have := tokensGo_ws_flush ls cur ' ' cs (by decide)
  rw [this]
  rfl

theorem tokensGo_flush_nl (ls : Bool) (cur : List Char) (cs : List Char) :
    tokensGo (some cur) ls ('\n' :: cs)
      = (if cur = [] then [] else [cur.reverse])
        ++ tokensGo (some []) true cs := by
  have := tokensGo_ws_flush ls cur '\n' cs (by decide)
  rw [this]
  rfl

theorem tokensGo_tok1 (ls : Bool) (c d : Char) (tail : List Char)
    (hc : isWsChar c = false) (hnc : ls = true → c ≠ 'c')
    (hd : isWsChar d = true) :
    tokensGo (some []) ls (c :: d :: tail)
      = [c] :: tokensGo (some []) (d = '\n') tail := by
  have h := tokensGo_emit ls [c] d tail (by simp)
    (by intro x hx; simp at hx; rw [hx]; exact hc)
    (by intro h; simpa using hnc h) hd
  simpa using h

theorem tokensGo_tok1_sp (ls : Bool) (c : Char) (tail : List Char)
    (hc : isWsChar c = false) (hnc : ls = true → c ≠ 'c') :
    tokensGo (some []) ls (c :: ' ' :: tail)
      = [c] :: tokensGo (some []) false tail := by
  rw [tokensGo_tok1 ls c ' ' tail hc hnc (by decide)]
  rfl

theorem tokensGo_tok1_nl (ls : Bool) (c : Char) (tail : List Char)
    (hc : isWsChar c = false) (hnc : ls = true → c ≠ 'c') :
    tokensGo (some []) ls (c :: '\n' :: tail)
      = [c] :: tokensGo (some []) true tail := by
  rw [tokensGo_tok1 ls c '\n' tail hc hnc (by decide)]
  rfl

theorem write_prefix_loop_nil (lastQ : Int) :
    write_prefix_loop lastQ []
      = if lastQ ≠ 0 then [' ', '0', '\n'] else [] := rfl

theorem write_prefix_loop_cons (lastQ q : Int) (rest : List Int) :
    write_prefix_loop lastQ (q :: rest)
      = (if q < 0 ∧ 0 ≤ lastQ then
          (if lastQ ≠ 0 then [' ', '0', '\n'] else [])
            ++ 'e' :: ' ' :: intChars (-q)
        else if 0 < q ∧ lastQ ≤ 0 then
          (if lastQ ≠ 0 then [' ', '0', '\n'] else [])
            ++ 'a' :: ' ' :: intChars q
        else if q < 0 then ' ' :: intChars (-q)
        else ' ' :: intChars q) ++ write_prefix_loop q rest := rfl

theorem prefix_tokens_nil (lastQ : Int) :
    prefix_tokens lastQ [] = if lastQ ≠ 0 then [['0']] else [] := rfl

theorem prefix_tokens_cons (lastQ q : Int) (rest : List Int) :
    prefix_tokens lastQ (q :: rest)
      = (if q < 0 ∧ 0 ≤ lastQ then
          (if lastQ ≠ 0 then [['0']] else []) ++ [['e'], intChars (-q)]
        else if 0 < q ∧ lastQ ≤ 0 then
          (if lastQ ≠ 0 then [['0']] else []) ++ [['a'], intChars q]
        else if q < 0 then [intChars (-q)]
        else [intChars q]) ++ prefix_tokens q rest := rfl

theorem tokens_prefix_aux (qs : List Int) :
    ∀ (lastQ : Int) (cur : List Char) (ls : Bool) (tail : List Char),
    lastQ ≠ 0 → (∀ q ∈ qs, q ≠ 0) →
    tokensGo (some cur) ls (write_prefix_loop lastQ qs ++ tail)
      = (if cur = [] then [] else [cur.reverse]) ++ prefix_tokens lastQ qs
        ++ tokensGo (some []) true tail := by
  induction qs with
  | nil =>
    intro lastQ cur ls tail hl _
    rw [write_prefix_loop_nil, prefix_tokens_nil, if_pos hl, if_pos hl]
    show tokensGo (some cur) ls (' ' :: '0' :: '\n' :: tail) = _
    rw [tokensGo_flush_sp]
    rw [tokensGo_tok1_nl false '0' tail (by decide) (fun _ => by decide)]
    simp
  | cons q rest ih =>
    intro lastQ cur ls tail hl hq
    have hq0 : q ≠ 0 := hq q (by simp)
    have hqrest : ∀ x ∈ rest, x ≠ 0 := fun x hx => hq x (by simp [hx])
    rw [write_prefix_loop_cons, prefix_tokens_cons]
    by_cases hb1 : q < 0 ∧ 0 ≤ lastQ
    · rw [if_pos hb1, if_pos hb1, if_pos hl, if_pos hl]
      simp only [List.append_assoc, List.cons_append, List.nil_append]
      rw [tokensGo_flush_sp]
      rw [tokensGo_tok1_nl false '0' _ (by decide) (fun _ => by decide)]
      rw [tokensGo_tok1_sp true 'e' _ (by decide) (fun _ => by decide)]
      rw [tokensGo_acc (intChars (-q)) [] _ (intChars_not_ws _)]
      rw [List.append_nil]
      rw [ih q ((intChars (-q)).reverse) false tail hq0 hqrest]
      have hne : ¬((intChars (-q)).reverse = []) := by
        simp [intChars_ne_nil]
      rw [if_neg hne, List.reverse_reverse]
      simp [List.singleton_append]
    · rw [if_neg hb1, if_neg hb1]
      by_cases hb2 : 0 < q ∧ lastQ ≤ 0
      · rw [if_pos hb2, if_pos hb2, if_pos hl, if_pos hl]
        simp only [List.append_assoc, List.cons_append, List.nil_append]
        rw [tokensGo_flush_sp]
        rw [tokensGo_tok1_nl false '0' _ (by decide) (fun _ => by decide)]
        rw [tokensGo_tok1_sp true 'a' _ (by decide) (fun _ => by decide)]
        rw [tokensGo_acc (intChars q) [] _ (intChars_not_ws _)]
        rw [List.append_nil]
        rw [ih q ((intChars q).reverse) false tail hq0 hqrest]
        have hne : ¬((intChars q).reverse = []) := by
          simp [intChars_ne_nil]
        rw [if_neg hne, List.reverse_reverse]
        simp [List.singleton_append]
      · rw [if_neg hb2, if_neg hb2]
        by_cases hq2 : q < 0
        · rw [if_pos hq2, if_pos hq2]
          simp only [List.append_assoc, List.cons_append, List.nil_append]
          rw [tokensGo_flush_sp]
          rw [tokensGo_acc (intChars (-q)) [] _ (intChars_not_ws _)]
          rw [List.append_nil]
          rw [ih q ((intChars (-q)).reverse) false tail hq0 hqrest]
          have hne : ¬((intChars (-q)).reverse = []) := by
            simp [intChars_ne_nil]
          rw [if_neg hne, List.reverse_reverse]
          simp [List.singleton_append]
        · rw [if_neg hq2, if_neg hq2]
          simp only [List.append_assoc, List.cons_append, List.nil_append]
          rw [tokensGo_flush_sp]
          rw [tokensGo_acc (intChars q) [] _ (intChars_not_ws _)]
          rw [List.append_nil]
          rw [ih q ((intChars q).reverse) false tail hq0 hqrest]
          have hne : ¬((intChars q).reverse = []) := by
            simp [intChars_ne_nil]
          rw [if_neg hne, List.reverse_reverse]
          simp [List.singleton_append]

theorem tokens_prefix_top (qs : List Int) (tail : List Char)
    (hq : ∀ q ∈ qs, q ≠ 0) :
    tokensGo (some []) true (write_prefix_loop 0 qs ++ tail)
      = prefix_tokens 0 qs ++ tokensGo (some []) true tail := by
  cases qs with
  | nil =>
    rw [write_prefix_loop_nil, prefix_tokens_nil]
    simp
  | cons q rest =>
    have hq0 : q ≠ 0 := hq q (by simp)
    have hqrest : ∀ x ∈ rest, x ≠ 0 := fun x hx => hq x (by simp [hx])
    rw [write_prefix_loop_cons, prefix_tokens_cons]
    by_cases hb1 : q < 0 ∧ 0 ≤ (0 : Int)
    · rw [if_pos hb1, if_pos hb1, if_neg (by simp), if_neg (by simp)]
      simp only [List.append_assoc, List.cons_append, List.nil_append]
      rw [tokensGo_tok1_sp true 'e' _ (by decide) (fun _ => by decide)]
      rw [tokensGo_acc (intChars (-q)) [] _ (intChars_not_ws _)]
      rw [List.append_nil]
      rw [tokens_prefix_aux rest q ((intChars (-q)).reverse) false tail hq0
        hqrest]
      have hne : ¬((intChars (-q)).reverse = []) := by
        simp [intChars_ne_nil]
      rw [if_neg hne, List.reverse_reverse]
      simp [List.singleton_append]
    · rw [if_neg hb1, if_neg hb1]
      have hb2 : 0 < q ∧ (0 : Int) ≤ 0 := by
        constructor
        · rcases lt_trichotomy q 0 with h | h | h
          · exact absurd ⟨h, by omega⟩ hb1
          · exact absurd h hq0
          · exact h
        · omega
      rw [if_pos hb2, if_pos hb2, if_neg (by simp), if_neg (by simp)]
      simp only [List.append_assoc, List.cons_append, List.nil_append]
      rw [tokensGo_tok1_sp true 'a' _ (by decide) (fun _ => by decide)]
      rw [tokensGo_acc (intChars q) [] _ (intChars_not_ws _)]
      rw [List.append_nil]
      rw [tokens_prefix_aux rest q ((intChars q).reverse) false tail hq0
        hqrest]
      have hne : ¬((intChars q).reverse = []) := by
        simp [intChars_ne_nil]
      rw [if_neg hne, List.reverse_reverse]
      simp [List.singleton_append]

theorem tokensGo_cnf (tail : List Char) :
    tokensGo (some []) false ('c' :: 'n' :: 'f' :: ' ' :: tail)
      = ['c', 'n', 'f'] :: tokensGo (some []) false tail := by
  have h := tokensGo_emit false ['c', 'n', 'f'] ' ' tail (by decide)
    (by decide) (fun h => absurd h (by decide)) (by decide)
  exact h

theorem tokensGo_int_sp (l : Int) (ls : Bool) (tail : List Char) :
    tokensGo (some []) ls (intChars l ++ ' ' :: tail)
      = intChars l :: tokensGo (some []) false tail := by
  have h := tokensGo_emit ls (intChars l) ' ' tail (intChars_ne_nil l)
    (intChars_not_ws l) (fun _ => intChars_headD_ne_c l) (by decide)
  exact h

theorem tokensGo_int_nl (l : Int) (ls : Bool) (tail : List Char) :
    tokensGo (some []) ls (intChars l ++ '\n' :: tail)
      = intChars l :: tokensGo (some []) true tail := by
  have h := tokensGo_emit ls (intChars l) '\n' tail (intChars_ne_nil l)
    (intChars_not_ws l) (fun _ => intChars_headD_ne_c l) (by decide)
  exact h

theorem write_clause_nil : write_clause [] = ['0', '\n'] := rfl

theorem write_clause_cons (l : Int) (rest : List Int) :
    write_clause (l :: rest) = (intChars l ++ [' ']) ++ write_clause rest := by
  simp [write_clause]

theorem clause_tokens_nil : clause_tokens [] = [['0']] := rfl

theorem clause_tokens_cons (l : Int) (rest : List Int) :
    clause_tokens (l :: rest) = intChars l :: clause_tokens rest := by
  simp [clause_tokens]

theorem tokens_clause (cl : List Int) : ∀ (ls : Bool) (tail : List Char),
    tokensGo (some []) ls (write_clause cl ++ tail)
      = clause_tokens cl ++ tokensGo (some []) true tail := by
  induction cl with
  | nil =>
    intro ls tail
    rw [write_clause_nil, clause_tokens_nil]
    show tokensGo (some []) ls ('0' :: '\n' :: tail) = _
    rw [tokensGo_tok1_nl ls '0' tail (by decide) (fun _ => by decide)]
    simp
  | cons l rest ih =>
    intro ls tail
    rw [write_clause_cons, clause_tokens_cons]
    rw [List.append_assoc, List.append_assoc]
    rw [show ([' '] : List Char) ++ (write_clause rest ++ tail)
      = ' ' :: (write_clause rest ++ tail) from rfl]
    rw [tokensGo_int_sp l ls _]
    rw [ih false tail]
    simp

theorem tokens_matrix (m : List (List Int)) : ∀ (ls : Bool),
    tokensGo (some []) ls ((m.map write_clause).flatten)
      = matrix_tokens m := by
  induction m with
  | nil => intro ls; rfl
  | cons cl rest ih =>
    intro ls
    rw [show ((cl :: rest).map write_clause).flatten
      = write_clause cl ++ (rest.map write_clause).flatten from by simp]
    rw [tokens_clause cl ls _]
    rw [ih true]
    rw [show matrix_tokens (cl :: rest)
      = clause_tokens cl ++ matrix_tokens rest from by simp [matrix_tokens]]

theorem tokens_write_qdimacs (f : Formula)
    (hq : ∀ q ∈ f.prefix_, q ≠ 0) :
    qdimacs_tokens (write_qdimacs f)
      = ['p'] :: ['c', 'n', 'f'] :: intChars f.nr_of_variables ::
        intChars f.nr_of_clauses ::
        (prefix_tokens 0 f.prefix_ ++ matrix_tokens f.matrix) := by
  unfold qdimacs_tokens write_qdimacs write_problem_line
  simp only [List.append_assoc, List.cons_append, List.nil_append]
  rw [tokensGo_tok1_sp true 'p' _ (by decide) (fun _ => by decide)]
  rw [tokensGo_cnf]
  rw [tokensGo_int_sp f.nr_of_variables false _]
  rw [tokensGo_int_nl f.nr_of_clauses false _]
  rw [tokens_prefix_top f.prefix_ _ hq]
  rw [tokens_matrix f.matrix true]

theorem pgo_top_nil (pre : List Int) (mat : List (List Int))
    (spl : List IntegerSplit) :
    pgo pre mat spl .top [] = .ok (pre, mat, spl) := rfl

theorem pgo_quant_nil (pre : List Int) (mat : List (List Int))
    (spl : List IntegerSplit) (neg got : Bool) :
    pgo pre mat spl (.quant neg got) [] = .error "parser error" := rfl

theorem pgo_clause_nil (pre : List Int) (mat : List (List Int))
    (spl : List IntegerSplit) (acc : List Int) :
    pgo pre mat spl (.clause acc) [] = .error "parser error" := rfl

theorem pgo_isVars_nil (pre : List Int) (mat : List (List Int))
    (spl : List IntegerSplit) (vars : List Int) :
    pgo pre mat spl (.isVars vars) [] = .error "parser error" := rfl

theorem pgo_isCmp_nil (pre : List Int) (mat : List (List Int))
    (spl : List IntegerSplit) (vars : List Int)
    (cons : List IntegerSplitConstraint) (nrBits : Nat) :
    pgo pre mat spl (.isCmp vars cons nrBits) [] = .error "parser error" := rfl

theorem pgo_isBound_nil (pre : List Int) (mat : List (List Int))
    (spl : List IntegerSplit) (vars : List Int)
    (cons : List IntegerSplitConstraint) (nrBits : Nat)
    (kind : IntegerSplitKind) :
    pgo pre mat spl (.isBound vars cons nrBits kind) []
      = .error "parser error" := rfl

theorem pgo_isEq_nil (pre : List Int) (mat : List (List Int))
    (spl : List IntegerSplit) (vars : List Int)
    (cons : List IntegerSplitConstraint) (nrBits : Nat)
    (pats : List (List Int)) :
    pgo pre mat spl (.isEq vars cons nrBits pats) []
      = .error "parser error" := rfl

theorem pgo_top_cons (pre : List Int) (mat : List (List Int))
    (spl : List IntegerSplit) (t : List Char) (ts : List (List Char)) :
    pgo pre mat spl .top (t :: ts)
      = if t = ['e'] then pgo pre mat spl (.quant true false) ts
        else if t = ['a'] then pgo pre mat spl (.quant false false) ts
        else if t = ['I', 'S'] then pgo pre mat spl (.isVars []) ts
        else
          (parseLit t).bind (fun l => pgo pre mat spl (.clause [l]) ts) := rfl

theorem pgo_quant_cons (pre : List Int) (mat : List (List Int))
    (spl : List IntegerSplit) (neg got : Bool) (t : List Char)
    (ts : List (List Char)) :
    pgo pre mat spl (.quant neg got) (t :: ts)
      = if t = ['0'] then
          if got then pgo pre mat spl .top ts else .error "parser error"
        else
          (parsePnum t).bind (fun v =>
            pgo (pre ++ [if neg then -(v : Int) else (v : Int)]) mat spl
              (.quant neg true) ts) := rfl

theorem pgo_clause_cons (pre : List Int) (mat : List (List Int))
    (spl : List IntegerSplit) (acc : List Int) (t : List Char)
    (ts : List (List Char)) :
    pgo pre mat spl (.clause acc) (t :: ts)
      = if t = ['0'] then pgo pre (mat ++ [acc]) spl .top ts
        else
          (parseLit t).bind (fun l =>
            pgo pre mat spl (.clause (acc ++ [l])) ts) := rfl

theorem pgo_isVars_cons (pre : List Int) (mat : List (List Int))
    (spl : List IntegerSplit) (vars : List Int) (t : List Char)
    (ts : List (List Char)) :
    pgo pre mat spl (.isVars vars) (t :: ts)
      = if t = ['<'] then pgo pre mat spl (.isBound vars [] 0 .LessThan) ts
        else if t = ['>'] then
          pgo pre mat spl (.isBound vars [] 0 .GreaterThan) ts
        else if t = ['='] then pgo pre mat spl (.isEq vars [] 0 []) ts
        else
          (parsePnum t).bind (fun v =>
            pgo pre mat spl (.isVars (vars ++ [(v : Int)])) ts) := rfl

theorem pgo_isBound_cons (pre : List Int) (mat : List (List Int))
    (spl : List IntegerSplit) (vars : List Int)
    (cons : List IntegerSplitConstraint) (nrBits : Nat)
    (kind : IntegerSplitKind) (t : List Char) (ts : List (List Char)) :
    pgo pre mat spl (.isBound vars cons nrBits kind) (t :: ts)
      = (parsePnum t).bind (fun v =>
          pgo pre mat spl
            (.isCmp vars
              (cons ++ [IntegerSplitConstraint.mk kind [[(v : Int)]]])
              nrBits) ts) := rfl

theorem pgo_isCmp_cons (pre : List Int) (mat : List (List Int))
    (spl : List IntegerSplit) (vars : List Int)
    (cons : List IntegerSplitConstraint) (nrBits : Nat) (t : List Char)
    (ts : List (List Char)) :
    pgo pre mat spl (.isCmp vars cons nrBits) (t :: ts)
      = if t = ['0'] then
          pgo pre mat (spl ++ [IntegerSplit.mk vars cons]) .top ts
        else if t = ['<'] then
          pgo pre mat spl (.isBound vars cons nrBits .LessThan) ts
        else if t = ['>'] then
          pgo pre mat spl (.isBound vars cons nrBits .GreaterThan) ts
        else if t = ['='] then pgo pre mat spl (.isEq vars cons nrBits []) ts
        else .error "parser error" := rfl

theorem pgo_isEq_cons (pre : List Int) (mat : List (List Int))
    (spl : List IntegerSplit) (vars : List Int)
    (cons : List IntegerSplitConstraint) (nrBits : Nat)
    (pats : List (List Int)) (t : List Char) (ts : List (List Char)) :
    pgo pre mat spl (.isEq vars cons nrBits pats) (t :: ts)
      = if isOnezeroTok t then
          if nrBits = 0 then
            pgo pre mat spl (.isEq vars cons t.length (pats ++ [patInts t])) ts
          else if t.length ≠ nrBits then
            .error "Number of assigned bits in equals must always be the same!"
          else pgo pre mat spl (.isEq vars cons nrBits (pats ++ [patInts t])) ts
        else if pats = [] then .error "parser error"
        else if t = ['0'] then
          pgo pre mat
            (spl ++ [IntegerSplit.mk vars
              (cons ++ [IntegerSplitConstraint.mk .Equals pats])]) .top ts
        else if t = ['<'] then
          pgo pre mat spl (.isBound vars
            (cons ++ [IntegerSplitConstraint.mk .Equals pats]) nrBits
            .LessThan) ts
        else if t = ['>'] then
          pgo pre mat spl (.isBound vars
            (cons ++ [IntegerSplitConstraint.mk .Equals pats]) nrBits
            .GreaterThan) ts
        else if t = ['='] then
          pgo pre mat spl (.isEq vars
            (cons ++ [IntegerSplitConstraint.mk .Equals pats]) nrBits []) ts
        else .error "parser error" := rfl

theorem parsePnum_sound (t : List Char) (v : Nat)
    (h : parsePnum t = .ok v) : 1 ≤ v ∧ v ≤ 2 ^ 31 - 1 := by
  unfold parsePnum at h
  by_cases h1 : t ≠ [] ∧ t.all Char.isDigit
  · rw [if_pos h1] at h
    by_cases h2 : digitsToNat 0 t = 0
    · rw [if_pos h2] at h
      exact absurd h (by simp)
    · rw [if_neg h2] at h
      by_cases h3 : digitsToNat 0 t > 2 ^ 31 - 1
      · rw [if_pos h3] at h
        exact absurd h (by simp)
      · rw [if_neg h3] at h
        have := Except.ok.inj h
        omega
  · rw [if_neg h1] at h
    exact absurd h (by simp)

theorem parseNatI32_sound (t : List Char) (v : Nat)
    (h : parseNatI32 t = .ok v) : v ≤ 2 ^ 31 - 1 := by
  unfold parseNatI32 at h
  by_cases h1 : t ≠ [] ∧ t.all Char.isDigit
  · rw [if_pos h1] at h
    by_cases h3 : digitsToNat 0 t > 2 ^ 31 - 1
    · rw [if_pos h3] at h
      exact absurd h (by simp)
    · rw [if_neg h3] at h
      have := Except.ok.inj h
      omega
  · rw [if_neg h1] at h
    exact absurd h (by simp)

theorem parseLit_sound (t : List Char) (l : Int)
    (h : parseLit t = .ok l) :
    l ≠ 0 ∧ -(2 ^ 31) ≤ l ∧ l ≤ 2 ^ 31 - 1 := by
  cases t with
  | nil => exact absurd h (by simp [parseLit])
  | cons c rest =>
    rw [parseLit_cons] at h
    by_cases hc : c = '-'
    · rw [if_pos hc] at h
      unfold parseNegLit at h
      by_cases h1 : rest ≠ [] ∧ rest.all Char.isDigit
      · rw [if_pos h1] at h
        by_cases h2 : digitsToNat 0 rest = 0
        · rw [if_pos h2] at h
          exact absurd h (by simp)
        · rw [if_neg h2] at h
          by_cases h3 : digitsToNat 0 rest > 2 ^ 31
          · rw [if_pos h3] at h
            exact absurd h (by simp)
          · rw [if_neg h3] at h
            have := Except.ok.inj h
            omega
      · rw [if_neg h1] at h
        exact absurd h (by simp)
    · rw [if_neg hc] at h
      unfold parsePosLit at h
      by_cases h1 : c :: rest ≠ [] ∧ (c :: rest).all Char.isDigit
      · rw [if_pos h1] at h
        by_cases h2 : digitsToNat 0 (c :: rest) = 0
        · rw [if_pos h2] at h
          exact absurd h (by simp)
        · rw [if_neg h2] at h
          by_cases h3 : digitsToNat 0 (c :: rest) > 2 ^ 31 - 1
          · rw [if_pos h3] at h
            exact absurd h (by simp)
          · rw [if_neg h3] at h
            have := Except.ok.inj h
            omega
      · rw [if_neg h1] at h
        exact absurd h (by simp)

theorem intChars_ne_tok (l : Int) (h0 : l ≠ 0) : intChars l ≠ ['0'] := by
  by_cases hneg : l < 0
  · rw [intChars_neg l hneg]
    intro h
    have h1 : '-' = '0' := (List.cons.inj h).1
    exact absurd h1 (by decide)
  · rw [intChars_nonneg l (by omega)]
    intro h
    have h1 := digitsToNat_natChars l.toNat
    rw [h] at h1
    have h2 : digitsToNat 0 ['0'] = 0 := rfl
    omega

theorem intChars_ne_of_head (l : Int) (u : List Char) (c : Char)
    (hcu : c ∈ u) (hc : ¬ c.isDigit = true) (hcm : c ≠ '-') :
    intChars l ≠ u := by
  intro h
  by_cases hneg : l < 0
  · rw [intChars_neg l hneg] at h
    rw [← h] at hcu
    rcases List.mem_cons.mp hcu with h1 | h1
    · exact hcm h1
    · exact hc (natChars_digits _ c h1)
  · rw [intChars_nonneg l (by omega)] at h
    exact natChars_ne_digits l.toNat u c hcu hc h

theorem except_bind_ok {α β : Type} (a : α) (f : α → Except String β) :
    (Except.ok a : Except String α).bind f = f a := rfl

theorem except_bind_error {α β : Type} (m : String)
    (f : α → Except String β) :
    (Except.error m : Except String α).bind f = .error m := rfl

theorem pgo_quant_num (pre : List Int) (mat : List (List Int))
    (spl : List IntegerSplit) (neg got : Bool) (t : List Char)
    (ts : List (List Char)) (v : Nat) (hne : t ≠ ['0'])
    (hp : parsePnum t = .ok v) :
    pgo pre mat spl (.quant neg got) (t :: ts)
      = pgo (pre ++ [if neg then -(v : Int) else (v : Int)]) mat spl
          (.quant neg true) ts := by
  rw [pgo_quant_cons, if_neg hne, hp, except_bind_ok]

theorem pgo_prefix_blocks (qs : List Int) :
    ∀ (lastQ : Int) (pre : List Int) (mat : List (List Int))
      (spl : List IntegerSplit) (ts : List (List Char)),
    lastQ ≠ 0 → (∀ q ∈ qs, q ≠ 0 ∧ q.natAbs ≤ 2 ^ 31 - 1) →
    pgo pre mat spl (.quant (decide (lastQ < 0)) true)
        (prefix_tokens lastQ qs ++ ts)
      = pgo (pre ++ qs) mat spl .top ts := by
  induction qs with
  | nil =>
    intro lastQ pre mat spl ts hl _
    rw [prefix_tokens_nil, if_pos hl]
    rw [show ([['0']] : List (List Char)) ++ ts = ['0'] :: ts from rfl]
    rw [pgo_quant_cons, if_pos rfl, if_pos rfl]
    rw [List.append_nil]
  | cons q rest ih =>
    intro lastQ pre mat spl ts hl hq
    obtain ⟨hq0, hqb⟩ := hq q (by simp)
    have hqrest : ∀ x ∈ rest, x ≠ 0 ∧ x.natAbs ≤ 2 ^ 31 - 1 :=
      fun x hx => hq x (List.mem_cons_of_mem _ hx)
    rw [prefix_tokens_cons]
    by_cases hb1 : q < 0 ∧ 0 ≤ lastQ
    · rw [if_pos hb1, if_pos hl]
      have hlpos : 0 < lastQ := by omega
      rw [decide_eq_false (show ¬ lastQ < 0 by omega)]
      simp only [List.append_assoc, List.cons_append, List.nil_append]
      rw [pgo_quant_cons, if_pos rfl, if_pos rfl]
      rw [pgo_top_cons, if_pos rfl]
      have hpn : parsePnum (intChars (-q)) = .ok (-q).toNat := by
        rw [intChars_nonneg (-q) (by omega)]
        exact parsePnum_natChars ((-q).toNat) (by omega) (by omega)
      rw [pgo_quant_num pre mat spl true false (intChars (-q)) _ ((-q).toNat)
        (intChars_ne_tok (-q) (by omega)) hpn]
      rw [if_pos rfl]
      have ih2 := ih q (pre ++ [-(((-q).toNat : Nat) : Int)]) mat spl ts hq0
        hqrest
      rw [show (decide (q < 0)) = true from decide_eq_true hb1.1] at ih2
      rw [ih2]
      rw [show -(((-q).toNat : Nat) : Int) = q by omega]
      rw [List.append_assoc]
      rw [List.singleton_append]
    · rw [if_neg hb1]
      by_cases hb2 : 0 < q ∧ lastQ ≤ 0
      · rw [if_pos hb2, if_pos hl]
        have hlneg : lastQ < 0 := by omega
        rw [decide_eq_true hlneg]
        simp only [List.append_assoc, List.cons_append, List.nil_append]
        rw [pgo_quant_cons, if_pos rfl, if_pos rfl]
        rw [pgo_top_cons, if_neg (by decide), if_pos rfl]
        have hpn : parsePnum (intChars q) = .ok q.toNat := by
          rw [intChars_nonneg q (by omega)]
          exact parsePnum_natChars q.toNat (by omega) (by omega)
        rw [pgo_quant_num pre mat spl false false (intChars q) _ q.toNat
          (intChars_ne_tok q (by omega)) hpn]
        rw [if_neg (by simp)]
        have ih2 := ih q (pre ++ [((q.toNat : Nat) : Int)]) mat spl ts hq0
          hqrest
        rw [show (decide (q < 0)) = false from
          decide_eq_false (by omega)] at ih2
        rw [ih2]
        rw [show (((q.toNat : Nat) : Int)) = q by omega]
        rw [List.append_assoc]
        rw [List.singleton_append]
      · by_cases hq2 : q < 0
        · rw [if_neg hb2, if_pos hq2]
          have hlneg : lastQ < 0 := by
            rcases lt_trichotomy lastQ 0 with h | h | h
            · exact h
            · exact absurd h hl
            · exact absurd ⟨hq2, by omega⟩ hb1
          rw [decide_eq_true hlneg]
          rw [List.append_assoc, List.singleton_append]
          have hpn : parsePnum (intChars (-q)) = .ok (-q).toNat := by
            rw [intChars_nonneg (-q) (by omega)]
            exact parsePnum_natChars ((-q).toNat) (by omega) (by omega)
          rw [pgo_quant_num pre mat spl true true (intChars (-q)) _
            ((-q).toNat) (intChars_ne_tok (-q) (by omega)) hpn]
          rw [if_pos rfl]
          have ih2 := ih q (pre ++ [-(((-q).toNat : Nat) : Int)]) mat spl ts
            hq0 hqrest
          rw [show (decide (q < 0)) = true from decide_eq_true hq2] at ih2
          rw [ih2]
          rw [show -(((-q).toNat : Nat) : Int) = q by omega]
          rw [List.append_assoc]
          rw [List.singleton_append]
        · rw [if_neg hb2, if_neg hq2]
          have hqpos : 0 < q := by omega
          have hlpos : 0 < lastQ := by
            rcases lt_trichotomy lastQ 0 with h | h | h
            · exact absurd ⟨hqpos, by omega⟩ hb2
            · exact absurd h hl
            · exact h
          rw [decide_eq_false (show ¬ lastQ < 0 by omega)]
          rw [List.append_assoc, List.singleton_append]
          have hpn : parsePnum (intChars q) = .ok q.toNat := by
            rw [intChars_nonneg q (by omega)]
            exact parsePnum_natChars q.toNat (by omega) (by omega)
          rw [pgo_quant_num pre mat spl false true (intChars q) _ q.toNat
            (intChars_ne_tok q (by omega)) hpn]
          rw [if_neg (by simp)]
          have ih2 := ih q (pre ++ [((q.toNat : Nat) : Int)]) mat spl ts hq0
            hqrest
          rw [show (decide (q < 0)) = false from
            decide_eq_false (by omega)] at ih2
          rw [ih2]
          rw [show (((q.toNat : Nat) : Int)) = q by omega]
          rw [List.append_assoc]
          rw [List.singleton_append]

theorem pgo_prefix_top (qs : List Int) (pre : List Int)
    (mat : List (List Int)) (spl : List IntegerSplit)
    (ts : List (List Char))
    (hq : ∀ q ∈ qs, q ≠ 0 ∧ q.natAbs ≤ 2 ^ 31 - 1) :
    pgo pre mat spl .top (prefix_tokens 0 qs ++ ts)
      = pgo (pre ++ qs) mat spl .top ts := by
  cases qs with
  | nil =>
    rw [prefix_tokens_nil, if_neg (by simp), List.nil_append,
      List.append_nil]
  | cons q rest =>
    obtain ⟨hq0, hqb⟩ := hq q (by simp)
    have hqrest : ∀ x ∈ rest, x ≠ 0 ∧ x.natAbs ≤ 2 ^ 31 - 1 :=
      fun x hx => hq x (List.mem_cons_of_mem _ hx)
    rw [prefix_tokens_cons]
    by_cases hq2 : q < 0
    · rw [if_pos ⟨hq2, by omega⟩, if_neg (by simp)]
      simp only [List.append_assoc, List.cons_append, List.nil_append]
      rw [pgo_top_cons, if_pos rfl]
      have hpn : parsePnum (intChars (-q)) = .ok (-q).toNat := by
        rw [intChars_nonneg (-q) (by omega)]
        exact parsePnum_natChars ((-q).toNat) (by omega) (by omega)
      rw [pgo_quant_num pre mat spl true false (intChars (-q)) _ ((-q).toNat)
        (intChars_ne_tok (-q) (by omega)) hpn]
      rw [if_pos rfl]
      have hb := pgo_prefix_blocks rest q (pre ++ [-(((-q).toNat : Nat) : Int)])
        mat spl ts hq0 hqrest
      rw [decide_eq_true hq2] at hb
      rw [hb]
      rw [show -(((-q).toNat : Nat) : Int) = q by omega]
      rw [List.append_assoc, List.singleton_append]
    · rw [if_neg (by intro hcc; exact hq2 hcc.1), if_pos ⟨by omega, le_refl _⟩,
        if_neg (by simp)]
      simp only [List.append_assoc, List.cons_append, List.nil_append]
      rw [pgo_top_cons, if_neg (by decide), if_pos rfl]
      have hpn : parsePnum (intChars q) = .ok q.toNat := by
        rw [intChars_nonneg q (by omega)]
        exact parsePnum_natChars q.toNat (by omega) (by omega)
      rw [pgo_quant_num pre mat spl false false (intChars q) _ q.toNat
        (intChars_ne_tok q (by omega)) hpn]
      rw [if_neg (by simp)]
      have hb := pgo_prefix_blocks rest q (pre ++ [((q.toNat : Nat) : Int)])
        mat spl ts hq0 hqrest
      rw [decide_eq_false (by omega)] at hb
      rw [hb]
      rw [show (((q.toNat : Nat) : Int)) = q by omega]
      rw [List.append_assoc, List.singleton_append]

theorem pgo_clause_lit (pre : List Int) (mat : List (List Int))
    (spl : List IntegerSplit) (acc : List Int) (t : List Char)
    (ts : List (List Char)) (l : Int) (hne : t ≠ ['0'])
    (hp : parseLit t = .ok l) :
    pgo pre mat spl (.clause acc) (t :: ts)
      = pgo pre mat spl (.clause (acc ++ [l])) ts := by
  rw [pgo_clause_cons, if_neg hne, hp, except_bind_ok]

theorem pgo_clause_toks (lits : List Int) :
    ∀ (acc pre : List Int) (mat : List (List Int)) (spl : List IntegerSplit)
      (ts : List (List Char)),
    (∀ l ∈ lits, l ≠ 0 ∧ -(2 ^ 31) ≤ l ∧ l ≤ 2 ^ 31 - 1) →
    pgo pre mat spl (.clause acc) ((lits.map intChars ++ [['0']]) ++ ts)
      = pgo pre (mat ++ [acc ++ lits]) spl .top ts := by
  induction lits with
  | nil =>
    intro acc pre mat spl ts _
    rw [show ((([] : List Int).map intChars ++ [['0']]) ++ ts)
      = ['0'] :: ts from rfl]
    rw [pgo_clause_cons, if_pos rfl, List.append_nil]
  | cons l rest ih =>
    intro acc pre mat spl ts h
    obtain ⟨hl0, hlb, hub⟩ := h l (by simp)
    have hrest : ∀ x ∈ rest, x ≠ 0 ∧ -(2 ^ 31) ≤ x ∧ x ≤ 2 ^ 31 - 1 :=
      fun x hx => h x (List.mem_cons_of_mem _ hx)
    simp only [List.map_cons, List.cons_append]
    rw [pgo_clause_lit pre mat spl acc (intChars l) _ l
      (intChars_ne_tok l hl0) (parseLit_intChars l hl0 hlb hub)]
    rw [ih (acc ++ [l]) pre mat spl ts hrest]
    rw [List.append_assoc, List.singleton_append]

theorem pgo_clause_from_top (cl : List Int) (pre : List Int)
    (mat : List (List Int)) (spl : List IntegerSplit)
    (ts : List (List Char)) (hne : cl ≠ [])
    (hcl : ∀ l ∈ cl, l ≠ 0 ∧ -(2 ^ 31) ≤ l ∧ l ≤ 2 ^ 31 - 1) :
    pgo pre mat spl .top (clause_tokens cl ++ ts)
      = pgo pre (mat ++ [cl]) spl .top ts := by
  cases cl with
  | nil => exact absurd rfl hne
  | cons l rest =>
    obtain ⟨hl0, hlb, hub⟩ := hcl l (by simp)
    have hrest : ∀ x ∈ rest, x ≠ 0 ∧ -(2 ^ 31) ≤ x ∧ x ≤ 2 ^ 31 - 1 :=
      fun x hx => hcl x (List.mem_cons_of_mem _ hx)
    rw [clause_tokens_cons, List.cons_append]
    rw [pgo_top_cons]
    rw [if_neg (intChars_ne_of_head l ['e'] 'e' (by simp) (by decide)
      (by decide))]
    rw [if_neg (intChars_ne_of_head l ['a'] 'a' (by simp) (by decide)
      (by decide))]
    rw [if_neg (intChars_ne_of_head l ['I', 'S'] 'I' (by simp) (by decide)
      (by decide))]
    rw [parseLit_intChars l hl0 hlb hub, except_bind_ok]
    rw [show clause_tokens rest = rest.map intChars ++ [['0']] from rfl]
    rw [pgo_clause_toks rest [l] pre mat spl ts hrest]
    rw [List.singleton_append]

theorem pgo_matrix (m : List (List Int)) :
    ∀ (pre : List Int) (mat : List (List Int)) (spl : List IntegerSplit),
    (∀ cl ∈ m, cl ≠ [] ∧ ∀ l ∈ cl, l ≠ 0 ∧ -(2 ^ 31) ≤ l ∧ l ≤ 2 ^ 31 - 1) →
    pgo pre mat spl .top (matrix_tokens m) = .ok (pre, mat ++ m, spl) := by
  induction m with
  | nil =>
    intro pre mat spl _
    rw [show matrix_tokens [] = [] from rfl, pgo_top_nil, List.append_nil]
  | cons cl rest ih =>
    intro pre mat spl h
    obtain ⟨hne, hcl⟩ := h cl (by simp)
    have hrest := fun x hx => h x (List.mem_cons_of_mem _ hx)
    rw [show matrix_tokens (cl :: rest)
      = clause_tokens cl ++ matrix_tokens rest from by simp [matrix_tokens]]
    rw [pgo_clause_from_top cl pre mat spl _ hne hcl]
    rw [ih pre (mat ++ [cl]) spl hrest]
    rw [List.append_assoc, List.singleton_append]

theorem parse_tokens_cons (t0 t1 vt ct : List Char)
    (rest : List (List Char)) :
    parse_tokens (t0 :: t1 :: vt :: ct :: rest)
      = if t0 = ['p'] ∧ t1 = ['c', 'n', 'f'] then
          (parseNatI32 vt).bind (fun nv =>
            (parseNatI32 ct).bind (fun nc =>
              (pgo [] [] [] .top rest).bind (fun r =>
                .ok ⟨(nv : Int), (nc : Int), r.1, r.2.1, r.2.2⟩)))
        else .error "parser error" := rfl

theorem parse_tokens_write (f : Formula)
    (hnv1 : 0 ≤ f.nr_of_variables) (hnv2 : f.nr_of_variables ≤ 2 ^ 31 - 1)
    (hnc1 : 0 ≤ f.nr_of_clauses) (hnc2 : f.nr_of_clauses ≤ 2 ^ 31 - 1)
    (hq : ∀ q ∈ f.prefix_, q ≠ 0 ∧ q.natAbs ≤ 2 ^ 31 - 1)
    (hm : ∀ cl ∈ f.matrix, cl ≠ [] ∧
      ∀ l ∈ cl, l ≠ 0 ∧ -(2 ^ 31) ≤ l ∧ l ≤ 2 ^ 31 - 1) :
    parse_tokens (qdimacs_tokens (write_qdimacs f))
      = .ok ⟨f.nr_of_variables, f.nr_of_clauses, f.prefix_, f.matrix, []⟩ := by
  rw [tokens_write_qdimacs f (fun q hq2 => (hq q hq2).1)]
  rw [parse_tokens_cons]
  rw [if_pos ⟨rfl, rfl⟩]
  rw [intChars_nonneg f.nr_of_variables hnv1,
    parseNatI32_natChars f.nr_of_variables.toNat (by omega), except_bind_ok]
  rw [intChars_nonneg f.nr_of_clauses hnc1,
    parseNatI32_natChars f.nr_of_clauses.toNat (by omega), except_bind_ok]
  rw [pgo_prefix_top f.prefix_ [] [] [] (matrix_tokens f.matrix) hq]
  rw [List.nil_append]
  rw [pgo_matrix f.matrix f.prefix_ [] [] hm]
  rw [List.nil_append, except_bind_ok]
  rw [show ((f.nr_of_variables.toNat : Nat) : Int) = f.nr_of_variables
    by omega]
  rw [show ((f.nr_of_clauses.toNat : Nat) : Int) = f.nr_of_clauses by omega]

theorem pgo_inv (toks : List (List Char)) :
    ∀ (pre0 : List Int) (mat0 : List (List Int)) (spl0 : List IntegerSplit)
      (mode : PMode) (pre : List Int) (mat : List (List Int))
      (spl : List IntegerSplit),
    pgo pre0 mat0 spl0 mode toks = .ok (pre, mat, spl) →
    (∀ q ∈ pre0, q ≠ 0 ∧ q.natAbs ≤ 2 ^ 31 - 1) →
    (∀ cl ∈ mat0, cl ≠ [] ∧
      ∀ l ∈ cl, l ≠ 0 ∧ -(2 ^ 31) ≤ l ∧ l ≤ 2 ^ 31 - 1) →
    (∀ acc, mode = .clause acc →
      acc ≠ [] ∧ ∀ l ∈ acc, l ≠ 0 ∧ -(2 ^ 31) ≤ l ∧ l ≤ 2 ^ 31 - 1) →
    (∀ q ∈ pre, q ≠ 0 ∧ q.natAbs ≤ 2 ^ 31 - 1) ∧
    (∀ cl ∈ mat, cl ≠ [] ∧
      ∀ l ∈ cl, l ≠ 0 ∧ -(2 ^ 31) ≤ l ∧ l ≤ 2 ^ 31 - 1) := by
  induction toks with
  | nil =>
    intro pre0 mat0 spl0 mode pre mat spl h hpre hmat hcl
    cases mode with
    | top =>
      rw [pgo_top_nil] at h
      have h2 := Except.ok.inj h
      rw [Prod.mk.injEq, Prod.mk.injEq] at h2
      obtain ⟨rfl, rfl, rfl⟩ := h2
      exact ⟨hpre, hmat⟩
    | quant neg got => rw [pgo_quant_nil] at h; exact absurd h (by simp)
    | clause acc => rw [pgo_clause_nil] at h; exact absurd h (by simp)
    | isVars v => rw [pgo_isVars_nil] at h; exact absurd h (by simp)
    | isCmp a b c => rw [pgo_isCmp_nil] at h; exact absurd h (by simp)
    | isBound a b c d => rw [pgo_isBound_nil] at h; exact absurd h (by simp)
    | isEq a b c d => rw [pgo_isEq_nil] at h; exact absurd h (by simp)
  | cons t ts ih =>
    intro pre0 mat0 spl0 mode pre mat spl h hpre hmat hcl
    cases mode with
    | top =>
      rw [pgo_top_cons] at h
      by_cases h1 : t = ['e']
      · rw [if_pos h1] at h
        exact ih pre0 mat0 spl0 (.quant true false) pre mat spl h hpre hmat
          (fun acc hacc => by simp at hacc)
      · rw [if_neg h1] at h
        by_cases h2 : t = ['a']
        · rw [if_pos h2] at h
          exact ih pre0 mat0 spl0 (.quant false false) pre mat spl h hpre
            hmat (fun acc hacc => by simp at hacc)
        · rw [if_neg h2] at h
          by_cases h3 : t = ['I', 'S']
          · rw [if_pos h3] at h
            exact ih pre0 mat0 spl0 (.isVars []) pre mat spl h hpre hmat
              (fun acc hacc => by simp at hacc)
          · rw [if_neg h3] at h
            cases hp : parseLit t with
            | error m =>
              rw [hp, except_bind_error] at h
              exact absurd h (by simp)
            | ok l =>
              rw [hp, except_bind_ok] at h
              obtain ⟨hl0, hlb, hub⟩ := parseLit_sound t l hp
              refine ih pre0 mat0 spl0 (.clause [l]) pre mat spl h hpre hmat
                ?_
              intro acc hacc
              injection hacc with h4
              subst h4
              refine ⟨by simp, ?_⟩
              intro x hx
              rw [List.mem_singleton] at hx
              subst hx
              exact ⟨hl0, hlb, hub⟩
    | quant neg got =>
      rw [pgo_quant_cons] at h
      by_cases h1 : t = ['0']
      · rw [if_pos h1] at h
        cases got with
        | false =>
          rw [if_neg (by simp)] at h
          exact absurd h (by simp)
        | true =>
          rw [if_pos rfl] at h
          exact ih pre0 mat0 spl0 .top pre mat spl h hpre hmat
            (fun acc hacc => by simp at hacc)
      · rw [if_neg h1] at h
        cases hp : parsePnum t with
        | error m =>
          rw [hp, except_bind_error] at h
          exact absurd h (by simp)
        | ok v =>
          rw [hp, except_bind_ok] at h
          obtain ⟨hv1, hv2⟩ := parsePnum_sound t v hp
          refine ih (pre0 ++ [if neg then -(v : Int) else (v : Int)]) mat0
            spl0 (.quant neg true) pre mat spl h ?_ hmat
            (fun acc hacc => by simp at hacc)
          intro q hq2
          rcases List.mem_append.mp hq2 with hq3 | hq3
          · exact hpre q hq3
          · rw [List.mem_singleton] at hq3
            subst hq3
            by_cases hneg : neg = true
            · rw [if_pos hneg]
              exact ⟨by omega, by omega⟩
            · rw [if_neg hneg]
              exact ⟨by omega, by omega⟩
    | clause acc =>
      rw [pgo_clause_cons] at h
      by_cases h1 : t = ['0']
      · rw [if_pos h1] at h
        refine ih pre0 (mat0 ++ [acc]) spl0 .top pre mat spl h hpre ?_
          (fun a ha => by simp at ha)
        intro cl hclm
        rcases List.mem_append.mp hclm with hc | hc
        · exact hmat cl hc
        · rw [List.mem_singleton] at hc
          rw [hc]
          exact hcl acc rfl
      · rw [if_neg h1] at h
        cases hp : parseLit t with
        | error m =>
          rw [hp, except_bind_error] at h
          exact absurd h (by simp)
        | ok l =>
          rw [hp, except_bind_ok] at h
          obtain ⟨hl0, hlb, hub⟩ := parseLit_sound t l hp
          obtain ⟨hane, halit⟩ := hcl acc rfl
          refine ih pre0 mat0 spl0 (.clause (acc ++ [l])) pre mat spl h hpre
            hmat ?_
          intro a ha
          injection ha with h4
          subst h4
          refine ⟨by simp, ?_⟩
          intro x hx
          rcases List.mem_append.mp hx with hx2 | hx2
          · exact halit x hx2
          · rw [List.mem_singleton] at hx2
            subst hx2
            exact ⟨hl0, hlb, hub⟩
    | isVars vars =>
      rw [pgo_isVars_cons] at h
      by_cases h1 : t = ['<']
      · rw [if_pos h1] at h
        exact ih pre0 mat0 spl0 (.isBound vars [] 0 .LessThan) pre mat spl h
          hpre hmat (fun acc hacc => by simp at hacc)
      · rw [if_neg h1] at h
        by_cases h2 : t = ['>']
        · rw [if_pos h2] at h
          exact ih pre0 mat0 spl0 (.isBound vars [] 0 .GreaterThan) pre mat
            spl h hpre hmat (fun acc hacc => by simp at hacc)
        · rw [if_neg h2] at h
          by_cases h3 : t = ['=']
          · rw [if_pos h3] at h
            exact ih pre0 mat0 spl0 (.isEq vars [] 0 []) pre mat spl h hpre
              hmat (fun acc hacc => by simp at hacc)
          · rw [if_neg h3] at h
            cases hp : parsePnum t with
            | error m =>
              rw [hp, except_bind_error] at h
              exact absurd h (by simp)
            | ok v =>
              rw [hp, except_bind_ok] at h
              exact ih pre0 mat0 spl0 (.isVars (vars ++ [(v : Int)])) pre mat
                spl h hpre hmat (fun acc hacc => by simp at hacc)
    | isBound vars cons nrBits kind =>
      rw [pgo_isBound_cons] at h
      cases hp : parsePnum t with
      | error m =>
        rw [hp, except_bind_error] at h
        exact absurd h (by simp)
      | ok v =>
        rw [hp, except_bind_ok] at h
        exact ih pre0 mat0 spl0
          (.isCmp vars (cons ++ [IntegerSplitConstraint.mk kind [[(v : Int)]]])
            nrBits) pre mat spl h hpre hmat
          (fun acc hacc => by simp at hacc)
    | isCmp vars cons nrBits =>
      rw [pgo_isCmp_cons] at h
      by_cases h1 : t = ['0']
      · rw [if_pos h1] at h
        exact ih pre0 mat0 (spl0 ++ [IntegerSplit.mk vars cons]) .top pre mat
          spl h hpre hmat (fun acc hacc => by simp at hacc)
      · rw [if_neg h1] at h
        by_cases h2 : t = ['<']
        · rw [if_pos h2] at h
          exact ih pre0 mat0 spl0 (.isBound vars cons nrBits .LessThan) pre
            mat spl h hpre hmat (fun acc hacc => by simp at hacc)
        · rw [if_neg h2] at h
          by_cases h3 : t = ['>']
          · rw [if_pos h3] at h
            exact ih pre0 mat0 spl0 (.isBound vars cons nrBits .GreaterThan)
              pre mat spl h hpre hmat (fun acc hacc => by simp at hacc)
          · rw [if_neg h3] at h
            by_cases h4 : t = ['=']
            · rw [if_pos h4] at h
              exact ih pre0 mat0 spl0 (.isEq vars cons nrBits []) pre mat spl
                h hpre hmat (fun acc hacc => by simp at hacc)
            · rw [if_neg h4] at h
              exact absurd h (by simp)
    | isEq vars cons nrBits pats =>
      rw [pgo_isEq_cons] at h
      by_cases h1 : isOnezeroTok t = true
      · rw [if_pos h1] at h
        by_cases h2 : nrBits = 0
        · rw [if_pos h2] at h
          exact ih pre0 mat0 spl0
            (.isEq vars cons t.length (pats ++ [patInts t])) pre mat spl h
            hpre hmat (fun acc hacc => by simp at hacc)
        · rw [if_neg h2] at h
          by_cases h3 : t.length ≠ nrBits
          · rw [if_pos h3] at h
            exact absurd h (by simp)
          · rw [if_neg h3] at h
            exact ih pre0 mat0 spl0
              (.isEq vars cons nrBits (pats ++ [patInts t])) pre mat spl h
              hpre hmat (fun acc hacc => by simp at hacc)
      · rw [if_neg h1] at h
        by_cases h2 : pats = []
        · rw [if_pos h2] at h
          exact absurd h (by simp)
        · rw [if_neg h2] at h
          by_cases h3 : t = ['0']
          · rw [if_pos h3] at h
            exact ih pre0 mat0
              (spl0 ++ [IntegerSplit.mk vars
                (cons ++ [IntegerSplitConstraint.mk .Equals pats])]) .top pre
              mat spl h hpre hmat (fun acc hacc => by simp at hacc)
          · rw [if_neg h3] at h
            by_cases h4 : t = ['<']
            · rw [if_pos h4] at h
              exact ih pre0 mat0 spl0
                (.isBound vars
                  (cons ++ [IntegerSplitConstraint.mk .Equals pats]) nrBits
                  .LessThan) pre mat spl h hpre hmat
                (fun acc hacc => by simp at hacc)
            · rw [if_neg h4] at h
              by_cases h5 : t = ['>']
              · rw [if_pos h5] at h
                exact ih pre0 mat0 spl0
                  (.isBound vars
                    (cons ++ [IntegerSplitConstraint.mk .Equals pats]) nrBits
                    .GreaterThan) pre mat spl h hpre hmat
                  (fun acc hacc => by simp at hacc)
              · rw [if_neg h5] at h
                by_cases h6 : t = ['=']
                · rw [if_pos h6] at h
                  exact ih pre0 mat0 spl0
                    (.isEq vars
                      (cons ++ [IntegerSplitConstraint.mk .Equals pats])
                      nrBits []) pre mat spl h hpre hmat
                    (fun acc hacc => by simp at hacc)
                · rw [if_neg h6] at h
                  exact absurd h (by simp)

theorem parse_tokens_inv (toks : List (List Char)) (r : RawParse)
    (h : parse_tokens toks = .ok r) :
    (∀ q ∈ r.pre, q ≠ 0 ∧ q.natAbs ≤ 2 ^ 31 - 1) ∧
    (∀ cl ∈ r.mat, cl ≠ [] ∧
      ∀ l ∈ cl, l ≠ 0 ∧ -(2 ^ 31) ≤ l ∧ l ≤ 2 ^ 31 - 1) ∧
    0 ≤ r.nv ∧ r.nv ≤ 2 ^ 31 - 1 ∧ 0 ≤ r.nc ∧ r.nc ≤ 2 ^ 31 - 1 := by
  rcases toks with - | ⟨t0, - | ⟨t1, - | ⟨vt, - | ⟨ct, rest⟩⟩⟩⟩
  · rw [show parse_tokens []
      = (.error "parser error" : Except String RawParse) from rfl] at h
    exact absurd h (by simp)
  · rw [show parse_tokens [t0]
      = (.error "parser error" : Except String RawParse) from rfl] at h
    exact absurd h (by simp)
  · rw [show parse_tokens [t0, t1]
      = (.error "parser error" : Except String RawParse) from rfl] at h
    exact absurd h (by simp)
  · rw [show parse_tokens [t0, t1, vt]
      = (.error "parser error" : Except String RawParse) from rfl] at h
    exact absurd h (by simp)
  · rw [parse_tokens_cons] at h
    by_cases hcond : t0 = ['p'] ∧ t1 = ['c', 'n', 'f']
    · rw [if_pos hcond] at h
      cases hnv : parseNatI32 vt with
      | error m =>
        rw [hnv, except_bind_error] at h
        exact absurd h (by simp)
      | ok nv =>
        rw [hnv, except_bind_ok] at h
        cases hnc : parseNatI32 ct with
        | error m =>
          rw [hnc, except_bind_error] at h
          exact absurd h (by simp)
        | ok nc =>
          rw [hnc, except_bind_ok] at h
          cases hpg : pgo [] [] [] .top rest with
          | error m =>
            rw [hpg, except_bind_error] at h
            exact absurd h (by simp)
          | ok trip =>
            rw [hpg, except_bind_ok] at h
            obtain rfl := Except.ok.inj h
            obtain ⟨hp, hm⟩ := pgo_inv rest [] [] [] .top trip.1 trip.2.1
              trip.2.2 hpg (by intro q hq; simp at hq)
              (by intro cl hcl; simp at hcl)
              (fun acc hacc => by simp at hacc)
            have hv := parseNatI32_sound vt nv hnv
            have hc := parseNatI32_sound ct nc hnc
            refine ⟨hp, hm, ?_, ?_, ?_, ?_⟩
            · show (0 : Int) ≤ (nv : Int)
              omega
            · show (nv : Int) ≤ 2 ^ 31 - 1
              omega
            · show (0 : Int) ≤ (nc : Int)
              omega
            · show (nc : Int) ≤ 2 ^ 31 - 1
              omega
    · rw [if_neg hcond] at h
      exact absurd h (by simp)

theorem parse_post_fields (spl : List IntegerSplit) (pre : List Int)
    (mat : List (List Int)) (nv nc : Int) (F : Formula)
    (h : parse_post spl pre mat nv nc = .ok F) :
    F.prefix_ = pre ∧ F.matrix = mat ∧ F.nr_of_variables = nv ∧
      F.nr_of_clauses = nc := by
  unfold parse_post at h
  cases hfix : fixup_splits pre spl 0 with
  | error m =>
    rw [hfix] at h
    rw [error_bind] at h
    exact absurd h (by simp)
  | ok fixed =>
    rw [hfix, ok_bind] at h
    have h2 : (consistency_check pre
        (if fixed.length = 0 ∧ 0 < pre.length then default_splits pre
          else fixed) >>= fun _ =>
        Except.ok (Formula.mk
          (if fixed.length = 0 ∧ 0 < pre.length then default_splits pre
            else fixed) pre mat nv nc)) = Except.ok F := h
    cases hcc : consistency_check pre
        (if fixed.length = 0 ∧ 0 < pre.length then default_splits pre
          else fixed) with
    | error m =>
      rw [hcc, error_bind] at h2
      exact absurd h2 (by simp)
    | ok u =>
      rw [hcc, ok_bind] at h2
      have h3 := (Except.ok.inj h2).symm
      rw [h3]
      exact ⟨rfl, rfl, rfl, rfl⟩

theorem parse_qdimacs_of_tokens (X : List Char) (r : RawParse) (F : Formula)
    (hpt : parse_tokens (qdimacs_tokens X) = .ok r)
    (hpp : parse_post r.spl r.pre r.mat r.nv r.nc = .ok F) :
    parse_qdimacs X = .ok F := by
  unfold parse_qdimacs
  rw [hpt]
  show (match parse_post r.spl r.pre r.mat r.nv r.nc with
    | .error m => ParseOutcome.panicked m
    | .ok f => ParseOutcome.ok f) = ParseOutcome.ok F
  rw [hpp]

theorem parse_qdimacs_inv (X : List Char) (F : Formula)
    (h : parse_qdimacs X = .ok F) :
    (∀ q ∈ F.prefix_, q ≠ 0 ∧ q.natAbs ≤ 2 ^ 31 - 1) ∧
    (∀ cl ∈ F.matrix, cl ≠ [] ∧
      ∀ l ∈ cl, l ≠ 0 ∧ -(2 ^ 31) ≤ l ∧ l ≤ 2 ^ 31 - 1) ∧
    0 ≤ F.nr_of_variables ∧ F.nr_of_variables ≤ 2 ^ 31 - 1 ∧
    0 ≤ F.nr_of_clauses ∧ F.nr_of_clauses ≤ 2 ^ 31 - 1 := by
  unfold parse_qdimacs at h
  cases hpt : parse_tokens (qdimacs_tokens X) with
  | error m =>
    rw [hpt] at h
    exact absurd h (by simp)
  | ok r =>
    rw [hpt] at h
    have h2 : (match parse_post r.spl r.pre r.mat r.nv r.nc with
      | .error m => ParseOutcome.panicked m
      | .ok f => ParseOutcome.ok f) = ParseOutcome.ok F := h
    cases hpp : parse_post r.spl r.pre r.mat r.nv r.nc with
    | error m =>
      rw [hpp] at h2
      exact absurd h2 (by simp)
    | ok f =>
      rw [hpp] at h2
      have h3 : f = F := by simpa using h2
      subst h3
      obtain ⟨hfp, hfm, hfv, hfc⟩ :=
        parse_post_fields r.spl r.pre r.mat r.nv r.nc f hpp
      obtain ⟨hp, hm, hb1, hb2, hb3, hb4⟩ := parse_tokens_inv _ r hpt
      rw [hfp, hfm, hfv, hfc]
      exact ⟨hp, hm, hb1, hb2, hb3, hb4⟩

/-- C4: for every well-formed QDIMACS input `X` without integer-split
lines (no `IS` token), if `parse_qdimacs X` succeeds with formula `F`,
then re-parsing `write_qdimacs F` succeeds, and the resulting formula
agrees with `F` on `prefix`, `matrix`, `nr_of_variables` and
`nr_of_clauses`. -/
theorem c4_parser_roundtrip (X : List Char) (F : Formula)
    (_hnois : ∀ t ∈ qdimacs_tokens X, t ≠ ['I', 'S'])
    (h : parse_qdimacs X = .ok F) :
    ∃ F2, parse_qdimacs (write_qdimacs F) = .ok F2 ∧
      F2.prefix_ = F.prefix_ ∧ F2.matrix = F.matrix ∧
      F2.nr_of_variables = F.nr_of_variables ∧
      F2.nr_of_clauses = F.nr_of_clauses := by
  obtain ⟨hpre, hmat, hnv1, hnv2, hnc1, hnc2⟩ := parse_qdimacs_inv X F h
  refine ⟨⟨default_splits F.prefix_, F.prefix_, F.matrix, F.nr_of_variables,
    F.nr_of_clauses⟩, ?_, rfl, rfl, rfl, rfl⟩
  have hpt := parse_tokens_write F hnv1 hnv2 hnc1 hnc2 hpre hmat
  have hpp := parse_post_no_splits F.prefix_ F.matrix F.nr_of_variables
    F.nr_of_clauses
  exact parse_qdimacs_of_tokens (write_qdimacs F)
    ⟨F.nr_of_variables, F.nr_of_clauses, F.prefix_, F.matrix, []⟩
    ⟨default_splits F.prefix_, F.prefix_, F.matrix, F.nr_of_variables,
      F.nr_of_clauses⟩ hpt hpp

set_option maxHeartbeats 2000000 in
/-- Witness for C4 at the input `p cnf 1 1\ne 1 0\n1 0\n`. -/
theorem c4_parser_roundtrip_witness :
    ∃ F2, parse_qdimacs (write_qdimacs (Formula.mk
        [IntegerSplit.mk [1] [IntegerSplitConstraint.mk .LessThan [[2]]]]
        [-1] [[1]] 1 1)) = .ok F2 ∧
      F2.prefix_ = (Formula.mk
        [IntegerSplit.mk [1] [IntegerSplitConstraint.mk .LessThan [[2]]]]
        [-1] [[1]] 1 1).prefix_ ∧
      F2.matrix = (Formula.mk
        [IntegerSplit.mk [1] [IntegerSplitConstraint.mk .LessThan [[2]]]]
        [-1] [[1]] 1 1).matrix ∧
      F2.nr_of_variables = (Formula.mk
        [IntegerSplit.mk [1] [IntegerSplitConstraint.mk .LessThan [[2]]]]
        [-1] [[1]] 1 1).nr_of_variables ∧
      F2.nr_of_clauses = (Formula.mk
        [IntegerSplit.mk [1] [IntegerSplitConstraint.mk .LessThan [[2]]]]
        [-1] [[1]] 1 1).nr_of_clauses :=
  c4_parser_roundtrip
    ['p', ' ', 'c', 'n', 'f', ' ', '1', ' ', '1', '\n',
     'e', ' ', '1', ' ', '0', '\n', '1', ' ', '0', '\n']
    (Formula.mk
      [IntegerSplit.mk [1] [IntegerSplitConstraint.mk .LessThan [[2]]]]
      [-1] [[1]] 1 1)
    (by decide) (by rfl)
